import Mathlib

/-!
Shallow embedding of `online_norm_2d.py` (Online Normalization, Cerebras).

Tensors of shape (B, C, H, W) are embedded as total functions
`Nat → Nat → Nat → Nat → Real` and (B, C) state arrays as
`Nat → Nat → Real`; indices outside the configured shape carry irrelevant
junk values.  All definitions are translated from the PyTorch source;
the theorems check the specification's claims about that source.
-/

namespace OnlineNorm

noncomputable section

open Finset

/-- Two-index real array, embedding a tensor of shape (B, C). -/
abbrev Mat : Type := ℕ → ℕ → ℝ

/-- Four-index real array, embedding a tensor of shape (B, C, H, W). -/
abbrev Ten4 : Type := ℕ → ℕ → ℕ → ℕ → ℝ

/-- Mean over the spatial axes of one (H, W) slice, translating
`torch.sum(inputs, dim=(2, 3)) / n` with `n = H * W` (used by both
`moments` and the `mean` helpers of the source). -/
def spatialMean (H W : ℕ) (f : ℕ → ℕ → ℝ) : ℝ :=
  (∑ h ∈ range H, ∑ w ∈ range W, f h w) / (H * W)

/-- Per-sample per-channel spatial mean, translating the `mu` component of
`ControlNorm2D.moments` (`torch.sum(inputs, dim=(2,3), keepdim=True) / n`). -/
def moments_mu (H W : ℕ) (x : Ten4) : Mat :=
  fun i c => spatialMean H W (x i c)

/-- Per-sample per-channel biased spatial variance, translating the second
component of `ControlNorm2D.moments` (`torch.sum(mu0 * mu0, dim=(2,3)) / n`
with `mu0 = inputs - mu`). -/
def moments_var (H W : ℕ) (x : Ten4) : Mat :=
  fun i c => spatialMean H W (fun h w => (x i c h w - moments_mu H W x i c) ^ 2)

/-- One step of the streaming EMA recurrence `y ← ρ * y + (1 - ρ) * x`. -/
def emaStep (ρ y x : ℝ) : ℝ := ρ * y + (1 - ρ) * x

/-- Sequential EMA of a list of inputs starting from `seed`; the reference
recurrence that the convolution-based `lin_momentum` is meant to batch. -/
def emaFold (ρ seed : ℝ) (xs : List ℝ) : ℝ := xs.foldl (emaStep ρ) seed

/-- Concatenated input window of `lin_momentum`, translating
`torch.cat([mu_prev[1:], mu_curr])`: row `j` is `mu_prev (j+1)` for
`j < B - 1` and `mu_curr (j - (B-1))` afterwards. -/
def catW (B : ℕ) (mu_prev mu_curr : Mat) : Mat :=
  fun j c => if j < B - 1 then mu_prev (j + 1) c else mu_curr (j - (B - 1)) c

/-- Translation of the helper `lin_momentum`: the valid 1-D convolution of
the concatenated window against the kernel `momentum_pow` (passed by the
callers as `momentum ^ range(b_size-1, -1, -1)`), seeded with
`momentum_batch * mu_stream`; returns the `(stale, fresh)` trajectory pair
`(torch.cat([mu_stream[-1], curr[:-1]]), curr)`. -/
def lin_momentum (B : ℕ) (mu_prev mu_curr mu_stream : Mat) (momentum : ℝ)
    (momentum_pow : ℕ → ℝ) (momentum_batch : Mat) : Mat × Mat :=
  let curr : Mat := fun i c =>
    momentum_batch i c * mu_stream i c +
      (1 - momentum) * ∑ t ∈ range B, momentum_pow t * catW B mu_prev mu_curr (i + t) c
  (fun i c => if i = 0 then mu_stream (B - 1) c else curr (i - 1) c, curr)

/-- Precomputed decay kernel, translating `self.af_pow`/`self.ab_pow`
(`momentum ** range(b_size - 1, -1, -1)`): entry `t` is `ρ ^ (B - 1 - t)`. -/
def decayPow (ρ : ℝ) (B : ℕ) : ℕ → ℝ := fun t => ρ ^ (B - 1 - t)

/-- Precomputed decay matrix, translating `self.af_batch`/`self.ab_batch`
(a constant (B, C) tensor filled with `ρ ^ B`). -/
def decayBatch (ρ : ℝ) (B : ℕ) : Mat := fun _ _ => ρ ^ B

theorem emaFold_append (ρ s : ℝ) (xs ys : List ℝ) :
    emaFold ρ s (xs ++ ys) = emaFold ρ (emaFold ρ s xs) ys := by
  simp [emaFold, List.foldl_append]

theorem emaFold_rangeMap (ρ s : ℝ) (f : ℕ → ℝ) (n : ℕ) :
    emaFold ρ s ((List.range n).map f) =
      ρ ^ n * s + (1 - ρ) * ∑ t ∈ range n, ρ ^ (n - 1 - t) * f t := by
  induction n generalizing s with
  | zero => simp [emaFold]
  | succ n ih =>
    rw [List.range_succ, List.map_append, emaFold_append]
    simp only [List.map_cons, List.map_nil]
    have hsingle : ∀ y : ℝ, emaFold ρ y ([f n]) = ρ * y + (1 - ρ) * f n := by
      intro y; simp [emaFold, emaStep]
    rw [hsingle, ih]
    simp only [Nat.add_sub_cancel]
    rw [sum_range_succ, Nat.sub_self, pow_zero]
    have hkey : ∑ t ∈ range n, ρ ^ (n - t) * f t
        = ρ * ∑ t ∈ range n, ρ ^ (n - 1 - t) * f t := by
      rw [mul_sum]
      refine sum_congr rfl ?_
      intro t ht
      have h1 : n - t = (n - 1 - t) + 1 := by
        have := mem_range.mp ht; omega
      rw [h1, pow_succ]; ring
    rw [hkey]
    ring

/-- Tail window of a (B, C) array: the list of rows `s, s+1, …, B-1`
at channel `c` (used to relate trajectory states across calls). -/
def winTail (m : Mat) (B s c : ℕ) : List ℝ :=
  (List.range (B - s)).map fun t => m (s + t) c

/-- Head window of a (B, C) array: the list of rows `0, …, k-1` at
channel `c`. -/
def winHead (m : Mat) (k c : ℕ) : List ℝ :=
  (List.range k).map fun j => m j c

theorem list_range_split {α : Type} (a b : ℕ) (f : ℕ → α) :
    (List.range (a + b)).map f =
      ((List.range a).map f) ++ ((List.range b).map fun t => f (a + t)) := by
  rw [List.range_add, List.map_append, List.map_map]
  rfl

/-- The convolution window of `lin_momentum` at output position `i < B`
splits into the tail `mu_prev[i+1:]` of the previous batch followed by the
current values `mu_curr[0:i+1]`. -/
theorem catW_window_split (B i : ℕ) (hi : i < B) (mp mc : Mat) (c : ℕ) :
    (List.range B).map (fun t => catW B mp mc (i + t) c) =
      winTail mp B (i + 1) c ++ winHead mc (i + 1) c := by
  have hsplit := list_range_split (B - 1 - i) (i + 1) (fun t => catW B mp mc (i + t) c)
  rw [(by omega : B - 1 - i + (i + 1) = B)] at hsplit
  rw [hsplit]
  congr 1
  · simp only [winTail]
    rw [(by omega : B - (i + 1) = B - 1 - i)]
    apply List.map_congr_left
    intro t ht
    have htl := List.mem_range.mp ht
    have hlt : i + t < B - 1 := by omega
    simp only [catW, if_pos hlt]
    congr 1
    omega
  · simp only [winHead]
    apply List.map_congr_left
    intro t ht
    have htl := List.mem_range.mp ht
    have hge : ¬ (i + (B - 1 - i + t) < B - 1) := by omega
    simp only [catW, if_neg hge]
    congr 1
    omega

/-- A head window followed by the matching tail window is the full window. -/
theorem winHead_append_winTail (B i : ℕ) (hi : i < B) (m : Mat) (c : ℕ) :
    winHead m (i + 1) c ++ winTail m B (i + 1) c = winHead m B c := by
  have hB : B = (i + 1) + (B - 1 - i) := by omega
  conv_rhs => rw [winHead, hB, list_range_split]
  have hlen : B - (i + 1) = B - 1 - i := by omega
  rw [winTail, hlen, winHead]

/-- Fresh trajectory entry of `lin_momentum`, as a sequential EMA over the
window ending at the current sample, when the kernel is the decay-power
vector the module passes in. -/
theorem lin_momentum_fresh_emaFold (B : ℕ) (ρ : ℝ) (mp mc ms : Mat) (i c : ℕ) :
    (lin_momentum B mp mc ms ρ (decayPow ρ B) (decayBatch ρ B)).2 i c =
      emaFold ρ (ms i c) ((List.range B).map fun t => catW B mp mc (i + t) c) := by
  rw [emaFold_rangeMap]
  simp only [lin_momentum, decayPow, decayBatch]

/-- Fresh trajectory entry of `lin_momentum` rewritten through the previous
batch tail and the current head, using the state-seeding decomposition. -/
theorem lin_momentum_fresh_split (B : ℕ) (ρ : ℝ) (mp mc ms : Mat) (i c : ℕ) (hi : i < B) :
    (lin_momentum B mp mc ms ρ (decayPow ρ B) (decayBatch ρ B)).2 i c =
      emaFold ρ (emaFold ρ (ms i c) (winTail mp B (i + 1) c)) (winHead mc (i + 1) c) := by
  rw [lin_momentum_fresh_emaFold, catW_window_split B i hi, emaFold_append]

/-- Claim C2: `lin_momentum` returns `(stale, fresh)` where `fresh i` is the
`B`-step unrolling of the EMA recurrence `y ← ρ*y + (1-ρ)*x` over the
concatenated window `w = cat (mu_prev[1:]) mu_curr` ending at `mu_curr i`
(closed form `ρ^B * mu_stream i + (1-ρ) * ∑ k < B, ρ^k * w (i+(B-1)-k)`),
`stale 0 = mu_stream (B-1)`, and `stale i = fresh (i-1)` for `i ≥ 1`. -/
theorem C2_lin_momentum_ema (B : ℕ) (ρ : ℝ) (h0 : 0 < ρ) (h1 : ρ < 1)
    (mu_prev mu_curr mu_stream : Mat) :
    (∀ i c, (lin_momentum B mu_prev mu_curr mu_stream ρ (decayPow ρ B) (decayBatch ρ B)).2 i c =
        ρ ^ B * mu_stream i c +
          (1 - ρ) * ∑ k ∈ range B, ρ ^ k * catW B mu_prev mu_curr (i + (B - 1) - k) c) ∧
    (∀ i c, (lin_momentum B mu_prev mu_curr mu_stream ρ (decayPow ρ B) (decayBatch ρ B)).2 i c =
        emaFold ρ (mu_stream i c)
          ((List.range B).map fun t => catW B mu_prev mu_curr (i + t) c)) ∧
    (∀ c, (lin_momentum B mu_prev mu_curr mu_stream ρ (decayPow ρ B) (decayBatch ρ B)).1 0 c =
        mu_stream (B - 1) c) ∧
    (∀ i c, 1 ≤ i →
      (lin_momentum B mu_prev mu_curr mu_stream ρ (decayPow ρ B) (decayBatch ρ B)).1 i c =
        (lin_momentum B mu_prev mu_curr mu_stream ρ (decayPow ρ B) (decayBatch ρ B)).2 (i - 1) c) := by
  refine ⟨?_, ?_, ?_, ?_⟩
  · intro i c
    simp only [lin_momentum, decayPow, decayBatch]
    congr 1
    congr 1
    rw [← Finset.sum_range_reflect
      (fun k => ρ ^ k * catW B mu_prev mu_curr (i + (B - 1) - k) c) B]
    apply sum_congr rfl
    intro t ht
    have htB := mem_range.mp ht
    have h3 : i + (B - 1) - (B - 1 - t) = i + t := by omega
    rw [h3]
  · intro i c
    exact lin_momentum_fresh_emaFold B ρ mu_prev mu_curr mu_stream i c
  · intro c
    simp [lin_momentum]
  · intro i c hi
    have h : i ≠ 0 := by omega
    simp [lin_momentum, h]

theorem C2_witness :
    (lin_momentum 2 (fun _ _ => (0 : ℝ)) (fun _ _ => (0 : ℝ)) (fun _ _ => (0 : ℝ))
        (1 / 2) (decayPow (1 / 2) 2) (decayBatch (1 / 2) 2)).1 1 0 =
      (lin_momentum 2 (fun _ _ => (0 : ℝ)) (fun _ _ => (0 : ℝ)) (fun _ _ => (0 : ℝ))
        (1 / 2) (decayPow (1 / 2) 2) (decayBatch (1 / 2) 2)).2 0 0 :=
  (C2_lin_momentum_ema 2 (1 / 2) one_half_pos one_half_lt_one _ _ _).2.2.2 1 0 le_rfl

/-- One-sided clamp, translating `torch.clamp(x, min=lo)`. -/
def clampMin (x lo : ℝ) : ℝ := max x lo

/-- Raw (pre-clamp) backward decay term of `lin_crtl`:
`1 - (1 - abkw) * E[out * out]` per sample and channel, translating
`torch.ones_like(...) - (1 - abkw) * mean_tensor(out * out, ...)`. -/
def ctrlAlphaRaw (abkw : ℝ) (H W : ℕ) (out : Ten4) : Mat :=
  fun i c => 1 - (1 - abkw) * spatialMean H W (fun h w => out i c h w * out i c h w)

/-- Clamped backward decay term `alpha` of `lin_crtl`
(`torch.clamp(alpha, min=eps)`). -/
def ctrlAlpha (abkw eps : ℝ) (H W : ℕ) (out : Ten4) : Mat :=
  fun i c => clampMin (ctrlAlphaRaw abkw H W out i c) eps

/-- Correlation term `beta = E[delta * out]` of `lin_crtl`
(`mean_tensor(delta * out, norm_ax=(2, 3))`). -/
def ctrlBeta (H W : ℕ) (delta out : Ten4) : Mat :=
  fun i c => spatialMean H W (fun h w => delta i c h w * out i c h w)

/-- Vertical concatenation `torch.cat((p, q), 0)` of two (B, C) arrays:
row `j` is `p j` for `j < B` and `q (j - B)` afterwards. -/
def catRows (B : ℕ) (p q : Mat) : Mat :=
  fun j c => if j < B then p j c else q (j - B) c

/-- Translation of the helper `conv_alongb_w1`: convolve along the second
(length 2b) axis of a (b, 2b, c) array with a length-b vector of ones.
The source realizes this by a transpose/view/conv1d/view chain whose net
index semantics is exactly `result i k c = ∑ t < b, input i (k + t) c`. -/
def conv_alongb_w1 (b : ℕ) (input : ℕ → ℕ → ℕ → ℝ) : ℕ → ℕ → ℕ → ℝ :=
  fun i k c => ∑ t ∈ range b, input i (k + t) c

/-- Flat index read by the `repeat/view` slice `[1:b+1, :b]` in `lin_crtl`:
tiling a (2B, C) array (2B+1) times vertically and re-viewing as
(2B, 2B+1, C) makes entry (i+1, j) of the view read original row
`((i+1)*(2B+1) + j) mod 2B`. -/
def circIdx (B i j : ℕ) : ℕ := ((i + 1) * (2 * B + 1) + j) % (2 * B)

/-- Sliced circulant of the concatenated log-decay array in `lin_crtl`
(`alpha2logcir`), right-padded with a (b, b, c) block of zeros
(`alpha2logcir2 = torch.cat((alpha2logcir, zeros), 1)`). -/
def alpha2logcir2 (B : ℕ) (alpha2log : Mat) : ℕ → ℕ → ℕ → ℝ :=
  fun i j c => if j < B then alpha2log (circIdx B i j) c else 0

/-- Product-of-decays weights of `lin_crtl`
(`weight_d = torch.exp(alpha2logcir2conv)`). -/
def weight_d (B : ℕ) (alpha2log : Mat) : ℕ → ℕ → ℕ → ℝ :=
  fun i k c => Real.exp (conv_alongb_w1 B (alpha2logcir2 B alpha2log) i k c)

/-- The batched v trajectory of `lin_crtl`
(`v_new = (weight_d * v_prev).sum(1)` where `v_prev` is the seed column
`v_p` prepended to the sliced circulant of the concatenated betas). -/
def linCrtlVNew (B : ℕ) (v_p alpha2log beta2 : Mat) : Mat :=
  fun i c => ∑ k ∈ range (B + 1),
    weight_d B alpha2log i k c * (if k = 0 then v_p i c else beta2 (circIdx B i (k - 1)) c)

/-- Translation of the helper `lin_crtl` (v-controller via log-space
convolutions).  The `repeat/view` slice `[1:b+1, :b]` of the tiled
(2b, c) arrays is translated index-faithfully through `circIdx`.  The
source declares the clamp floor default `eps=1e-32`; its only caller
passes `eps=1e-5` explicitly, so `eps` is an explicit parameter here.
Returns (grad_in, v_new, alpha, beta). -/
def lin_crtl (b_size num_features H W : ℕ) (delta out : Ten4)
    (v_p alpha_p beta_p : Mat) (abkw eps : ℝ) :
    Ten4 × Mat × Mat × Mat :=
  let alpha := ctrlAlpha abkw eps H W out
  let beta := ctrlBeta H W delta out
  let alpha2log : Mat := fun j c => Real.log (catRows b_size alpha_p alpha j c)
  let beta2 : Mat := catRows b_size beta_p beta
  let v_new : Mat := linCrtlVNew b_size v_p alpha2log beta2
  let vp : Mat := fun i c => if i = 0 then v_p (b_size - 1) c else v_new (i - 1) c
  (fun i c h w => delta i c h w - vp i c * (1 - abkw) * out i c h w, v_new, alpha, beta)

/-- One step of the data-dependent controller recurrence `v ← a * v + b`. -/
def ctrlStep (v : ℝ) (p : ℝ × ℝ) : ℝ := p.1 * v + p.2

/-- Sequential v-controller recurrence over a list of (decay, correlation)
pairs; the reference recurrence that `lin_crtl` batches. -/
def ctrlFold (seed : ℝ) (ps : List (ℝ × ℝ)) : ℝ := ps.foldl ctrlStep seed

theorem ctrlFold_append (s : ℝ) (xs ys : List (ℝ × ℝ)) :
    ctrlFold s (xs ++ ys) = ctrlFold (ctrlFold s xs) ys := by
  simp [ctrlFold, List.foldl_append]

theorem ctrlFold_rangeMap (seed : ℝ) (a b : ℕ → ℝ) (n : ℕ) :
    ctrlFold seed ((List.range n).map fun m => (a m, b m)) =
      (∏ m ∈ range n, a m) * seed + ∑ m ∈ range n, (∏ l ∈ Ico (m + 1) n, a l) * b m := by
  induction n generalizing seed with
  | zero => simp [ctrlFold]
  | succ n ih =>
    rw [List.range_succ, List.map_append, ctrlFold_append]
    simp only [List.map_cons, List.map_nil]
    have hsingle : ∀ y : ℝ, ctrlFold y ([(a n, b n)]) = a n * y + b n := by
      intro y; simp [ctrlFold, ctrlStep]
    rw [hsingle, ih, prod_range_succ, sum_range_succ]
    rw [Finset.Ico_self, Finset.prod_empty]
    have hico : (∑ m ∈ range n, (∏ l ∈ Ico (m + 1) (n + 1), a l) * b m)
        = ∑ m ∈ range n, ((∏ l ∈ Ico (m + 1) n, a l) * a n) * b m := by
      refine sum_congr rfl ?_
      intro m hm
      have hmn := mem_range.mp hm
      rw [prod_Ico_succ_top (by omega : m + 1 ≤ n) a]
    rw [hico]
    have hmul : a n * ∑ m ∈ range n, (∏ l ∈ Ico (m + 1) n, a l) * b m
        = ∑ m ∈ range n, ((∏ l ∈ Ico (m + 1) n, a l) * a n) * b m := by
      rw [mul_sum]
      exact sum_congr rfl fun m _ => by ring
    linear_combination hmul

theorem circIdx_eq (B i j : ℕ) (hi : i < B) (hj : j < B) :
    circIdx B i j = i + j + 1 := by
  have h1 : (i + 1) * (2 * B + 1) + j = (i + j + 1) + (i + 1) * (2 * B) := by ring
  rw [circIdx, h1, Nat.add_mul_mod_self_right]
  exact Nat.mod_eq_of_lt (by omega)

theorem weight_d_eq_prod (B : ℕ) (A2 : Mat) (c : ℕ) (hpos : ∀ j, 0 < A2 j c)
    (i k : ℕ) (hi : i < B) :
    weight_d B (fun j c => Real.log (A2 j c)) i k c =
      ∏ l ∈ Ico k B, A2 (i + 1 + l) c := by
  rw [weight_d]
  have hconv : conv_alongb_w1 B (alpha2logcir2 B fun j c => Real.log (A2 j c)) i k c =
      ∑ t ∈ range (B - k), Real.log (A2 (i + 1 + (k + t)) c) := by
    simp only [conv_alongb_w1, alpha2logcir2]
    rw [range_eq_Ico, ← sum_Ico_consecutive _ (Nat.zero_le (B - k)) (by omega : B - k ≤ B)]
    have h0 : ∀ t ∈ Ico (B - k) B,
        (if k + t < B then Real.log (A2 (circIdx B i (k + t)) c) else 0) = 0 := by
      intro t ht
      have htm := mem_Ico.mp ht
      rw [if_neg (by omega)]
    rw [sum_eq_zero h0, add_zero, ← range_eq_Ico]
    refine sum_congr rfl ?_
    intro t ht
    have htm := mem_range.mp ht
    rw [if_pos (by omega : k + t < B), circIdx_eq B i (k + t) hi (by omega)]
    rw [(by omega : i + (k + t) + 1 = i + 1 + (k + t))]
  rw [hconv, Real.exp_sum, prod_Ico_eq_prod_range]
  refine prod_congr rfl ?_
  intro t ht
  rw [Real.exp_log (hpos _)]

/-- Closed evaluation of the `v_new` trajectory of `lin_crtl` at row
`i < B`: it is the sequential controller recurrence `v ← a*v + b`, seeded
at `v_p i`, run over the length-B window of (decay, correlation) pairs
read from the concatenated previous/current arrays starting at row i+1. -/
theorem linCrtlVNew_eq_ctrlFold (B : ℕ) (v_p A2 B2 : Mat) (c : ℕ)
    (hpos : ∀ j, 0 < A2 j c) (i : ℕ) (hi : i < B) :
    linCrtlVNew B v_p (fun j c => Real.log (A2 j c)) B2 i c =
      ctrlFold (v_p i c) ((List.range B).map fun m => (A2 (i + 1 + m) c, B2 (i + 1 + m) c)) := by
  rw [ctrlFold_rangeMap]
  simp only [linCrtlVNew]
  rw [Finset.sum_range_succ']
  have hterm : ∀ k ∈ range B,
      weight_d B (fun j c => Real.log (A2 j c)) i (k + 1) c *
        (if k + 1 = 0 then v_p i c else B2 (circIdx B i (k + 1 - 1)) c) =
      (∏ l ∈ Ico (k + 1) B, A2 (i + 1 + l) c) * B2 (i + 1 + k) c := by
    intro k hk
    have hkB := mem_range.mp hk
    rw [if_neg (Nat.succ_ne_zero k), weight_d_eq_prod B A2 c hpos i (k + 1) hi,
      (by omega : k + 1 - 1 = k), circIdx_eq B i k hi hkB,
      (by omega : i + k + 1 = i + 1 + k)]
  rw [sum_congr rfl hterm, if_pos rfl, weight_d_eq_prod B A2 c hpos i 0 hi, ← range_eq_Ico]
  ring

/-- Positivity of the concatenated decay array fed to the logarithm in
`lin_crtl`, given a positive clamp floor and positive cached decays. -/
theorem catRows_alpha_pos (B H W : ℕ) (alpha_p : Mat) (out : Ten4) (abkw eps : ℝ)
    (heps : 0 < eps) (c : ℕ) (hap : ∀ j, j < B → 0 < alpha_p j c) :
    ∀ j, 0 < catRows B alpha_p (ctrlAlpha abkw eps H W out) j c := by
  intro j
  by_cases hj : j < B
  · simp only [catRows, if_pos hj]
    exact hap j hj
  · simp only [catRows, if_neg hj, ctrlAlpha, clampMin]
    exact lt_of_lt_of_le heps (le_max_right _ _)

/-- The `v_new` component returned by `lin_crtl`, evaluated in closed form
through the controller recurrence (shared helper for C1 and C3). -/
theorem lin_crtl_v_new_eq (B C H W : ℕ) (delta out : Ten4) (v_p alpha_p beta_p : Mat)
    (abkw eps : ℝ) (heps : 0 < eps) (c : ℕ) (hap : ∀ j, j < B → 0 < alpha_p j c)
    (i : ℕ) (hi : i < B) :
    (lin_crtl B C H W delta out v_p alpha_p beta_p abkw eps).2.1 i c =
      ctrlFold (v_p i c) ((List.range B).map fun m =>
        (catRows B alpha_p (ctrlAlpha abkw eps H W out) (i + 1 + m) c,
         catRows B beta_p (ctrlBeta H W delta out) (i + 1 + m) c)) := by
  have hpos := catRows_alpha_pos B H W alpha_p out abkw eps heps c hap
  simp only [lin_crtl]
  exact linCrtlVNew_eq_ctrlFold B v_p _ _ c hpos i hi

/-- Constant all-ones test tensor. -/
def oneT : Ten4 := fun _ _ _ _ => 1

/-- Claim C3 (amended): for every backward call, the v trajectory returned
by `lin_crtl` satisfies the recurrence `v_i = alpha_i * v_{i-1} + beta_i`
with `alpha_i` the clamped decay `ctrlAlpha` and `beta_i = E[grad_i*out_i]`,
seeded through the cached `v_p`/`alpha_p`/`beta_p` window; equivalently
`v_new` equals the unrolled form `(∏ alpha) * seed + ∑ beta * (partial
products of alpha)`.  Amendment forced by the counterexample: the
correlation term `beta_i` enters with coefficient 1, not with the factor
`(1 - alpha_bkw)` asserted by the claim (that factor is applied only when
the v correction is subtracted from the gradient). -/
theorem C3_lin_crtl_recurrence (B C H W : ℕ) (delta out : Ten4)
    (v_p alpha_p beta_p : Mat) (abkw eps : ℝ) (heps : 0 < eps) (c : ℕ)
    (hap : ∀ j, j < B → 0 < alpha_p j c) (i : ℕ) (hi : i < B) :
    (lin_crtl B C H W delta out v_p alpha_p beta_p abkw eps).2.1 i c =
      ctrlFold (v_p i c) ((List.range B).map fun m =>
        (catRows B alpha_p (ctrlAlpha abkw eps H W out) (i + 1 + m) c,
         catRows B beta_p (ctrlBeta H W delta out) (i + 1 + m) c)) ∧
    (lin_crtl B C H W delta out v_p alpha_p beta_p abkw eps).2.1 i c =
      (∏ m ∈ range B, catRows B alpha_p (ctrlAlpha abkw eps H W out) (i + 1 + m) c) *
          v_p i c +
        ∑ m ∈ range B,
          (∏ l ∈ Ico (m + 1) B, catRows B alpha_p (ctrlAlpha abkw eps H W out) (i + 1 + l) c) *
            catRows B beta_p (ctrlBeta H W delta out) (i + 1 + m) c := by
  have h := lin_crtl_v_new_eq B C H W delta out v_p alpha_p beta_p abkw eps heps c hap i hi
  exact ⟨h, h.trans (ctrlFold_rangeMap _ _ _ B)⟩

theorem C3_witness :
    (lin_crtl 1 1 1 1 oneT oneT (fun _ _ => 0) (fun _ _ => 1) (fun _ _ => 0)
        (1 / 2) 1e-5).2.1 0 0 =
      ctrlFold 0 ((List.range 1).map fun m =>
        (catRows 1 (fun _ _ => 1) (ctrlAlpha (1 / 2) 1e-5 1 1 oneT) (0 + 1 + m) 0,
         catRows 1 (fun _ _ => 0) (ctrlBeta 1 1 oneT oneT) (0 + 1 + m) 0)) :=
  (C3_lin_crtl_recurrence 1 1 1 1 oneT oneT (fun _ _ => 0) (fun _ _ => 1) (fun _ _ => 0)
    (1 / 2) 1e-5 (by norm_num) 0 (fun _ _ => one_pos) 0 one_pos).1

/-- Claim C3 counterexample: at B=1, C=1, H=W=1 with `delta = out = 1`,
cached `v_p = 0`, `alpha_p = 1`, `beta_p = 0`, `abkw = 1/2`: `lin_crtl`
returns `v_new = 1 = alpha_0 * v_seed + beta_0`, whereas the recurrence
asserted by the claim, `alpha_0 * v_seed + (1 - abkw) * beta_0`, predicts
the value 1/2. -/
theorem C3_counterexample :
    (lin_crtl 1 1 1 1 oneT oneT (fun _ _ => 0) (fun _ _ => 1) (fun _ _ => 0)
        (1 / 2) 1e-5).2.1 0 0 ≠
      ctrlAlpha (1 / 2) 1e-5 1 1 oneT 0 0 * (0 : ℝ) +
        (1 - 1 / 2) * ctrlBeta 1 1 oneT oneT 0 0 := by
  have hv : (lin_crtl 1 1 1 1 oneT oneT (fun _ _ => 0) (fun _ _ => 1) (fun _ _ => 0)
      (1 / 2) 1e-5).2.1 0 0 = 1 := by
    simp only [lin_crtl, linCrtlVNew, weight_d, conv_alongb_w1, alpha2logcir2, circIdx,
      catRows, ctrlBeta, spatialMean, oneT]
    norm_num [Finset.sum_range_succ, Real.exp_zero]
  have hb : ctrlBeta 1 1 oneT oneT 0 0 = 1 := by
    simp [ctrlBeta, spatialMean, oneT]
  rw [hv, hb]
  norm_num

/-- Streaming state of the sequential reference `ControlNorm2DLoop`:
per-channel mean, variance, and u/v control variables. -/
structure LoopState where
  m : ℕ → ℝ
  var : ℕ → ℝ
  u : ℕ → ℝ
  v : ℕ → ℝ

/-- Streaming state of the linearized `ControlNorm2D`: the (B, C)
trajectory and previous-call cache buffers registered by the module. -/
structure LinState where
  m : Mat
  var : Mat
  m_p : Mat
  var_p : Mat
  u : Mat
  u_p : Mat
  v_p : Mat
  beta_p : Mat
  alpha_p : Mat

/-- Initial streaming state of `ControlNorm2DLoop` (`init_norm_params`:
mean 0, variance 1, controllers 0). -/
def loopInit : LoopState := ⟨fun _ => 0, fun _ => 1, fun _ => 0, fun _ => 0⟩

/-- Initial streaming state of `ControlNorm2D` (`init_norm_params`:
m = m_p = 0, var = var_p = 1, u = u_p = v_p = beta_p = 0, alpha_p = 1). -/
def linInit : LinState :=
  ⟨fun _ _ => 0, fun _ _ => 1, fun _ _ => 0, fun _ _ => 1, fun _ _ => 0,
   fun _ _ => 0, fun _ _ => 0, fun _ _ => 0, fun _ _ => 1⟩

/-- Mean tracker of the loop reference after processing `n` samples of the
current batch (`self.m.data.add_((1 - afwd) * (mu[idx] - self.m))`). -/
def loopM (afwd : ℝ) (m0 : ℕ → ℝ) (mu : Mat) : ℕ → ℕ → ℝ
  | 0, c => m0 c
  | n + 1, c => loopM afwd m0 mu n c + (1 - afwd) * (mu n c - loopM afwd m0 mu n c)

/-- Variance tracker of the loop reference after `n` samples
(`self.var.data = afwd * var + (1-afwd) * var[idx] + afwd*(1-afwd)*(mu[idx]-m)**2`,
updated before the mean so it reads the stale mean). -/
def loopVar (afwd : ℝ) (m0 v0 : ℕ → ℝ) (mu varr : Mat) : ℕ → ℕ → ℝ
  | 0, c => v0 c
  | n + 1, c => afwd * loopVar afwd m0 v0 mu varr n c + (1 - afwd) * varr n c +
      afwd * (1 - afwd) * (mu n c - loopM afwd m0 mu n c) ^ 2

/-- Per-sample scale saved by the loop forward
(`scale[idx] = torch.sqrt(self.var + self.eps)`, read pre-update). -/
def loopScale (afwd eps : ℝ) (s : LoopState) (H W : ℕ) (x : Ten4) : Mat :=
  fun i c =>
    Real.sqrt (loopVar afwd s.m s.var (moments_mu H W x) (moments_var H W x) i c + eps)

/-- Normalized output of the loop training forward
(`out[idx] = (input[idx] - mu) / stddev` with the stale statistics). -/
def loopOut (afwd eps : ℝ) (s : LoopState) (H W : ℕ) (x : Ten4) : Ten4 :=
  fun i c h w =>
    (x i c h w - loopM afwd s.m (moments_mu H W x) i c) / loopScale afwd eps s H W x i c

/-- State after a training forward of `ControlNorm2DLoop` on `B` samples. -/
def loopForwardState (afwd : ℝ) (s : LoopState) (B H W : ℕ) (x : Ten4) : LoopState :=
  { s with
    m := fun c => loopM afwd s.m (moments_mu H W x) B c,
    var := fun c => loopVar afwd s.m s.var (moments_mu H W x) (moments_var H W x) B c }

/-- The v control variable of the loop backward after `n` samples
(`self.v.data.add_(self.mean(grad_v_ctrl * out[idx]))` with
`grad_v_ctrl = grad_out[idx] - (1-abkw) * v * out[idx]`). -/
def loopV (abkw : ℝ) (v0 : ℕ → ℝ) (H W : ℕ) (g out : Ten4) : ℕ → ℕ → ℝ
  | 0, c => v0 c
  | n + 1, c => loopV abkw v0 H W g out n c +
      spatialMean H W (fun h w =>
        (g n c h w - (1 - abkw) * loopV abkw v0 H W g out n c * out n c h w) * out n c h w)

/-- Scaled v-controlled gradient of the loop backward
(`grad_scaled = grad_v_ctrl / scale[idx]`). -/
def loopGradScaled (abkw : ℝ) (v0 : ℕ → ℝ) (H W : ℕ) (g out : Ten4) (scale : Mat) : Ten4 :=
  fun i c h w =>
    (g i c h w - (1 - abkw) * loopV abkw v0 H W g out i c * out i c h w) / scale i c

/-- The u control variable of the loop backward after `n` samples
(`self.u.data.add_(self.mean(grad_in[idx]))` where
`grad_in[idx] = grad_scaled - (1-abkw) * self.u`). -/
def loopU (abkw : ℝ) (u0 : ℕ → ℝ) (H W : ℕ) (gs : Ten4) : ℕ → ℕ → ℝ
  | 0, c => u0 c
  | n + 1, c => loopU abkw u0 H W gs n c +
      spatialMean H W (fun h w => gs n c h w - (1 - abkw) * loopU abkw u0 H W gs n c)

/-- Propagated input gradient of the loop backward. -/
def loopGradIn (abkw : ℝ) (u0 v0 : ℕ → ℝ) (H W : ℕ) (g out : Ten4) (scale : Mat) : Ten4 :=
  fun i c h w => loopGradScaled abkw v0 H W g out scale i c h w -
    (1 - abkw) * loopU abkw u0 H W (loopGradScaled abkw v0 H W g out scale) i c

/-- State after a backward of `ControlNorm2DLoop` over `B` samples. -/
def loopBackwardState (abkw : ℝ) (s : LoopState) (B H W : ℕ) (g out : Ten4)
    (scale : Mat) : LoopState :=
  { s with
    v := fun c => loopV abkw s.v H W g out B c,
    u := fun c => loopU abkw s.u H W (loopGradScaled abkw s.v H W g out scale) B c }

/-- One training forward immediately followed by its matching backward on
`ControlNorm2DLoop`; returns the normalized output, the propagated
gradient, and the updated state. -/
def loopStep (afwd abkw eps : ℝ) (B H W : ℕ) (s : LoopState) (x g : Ten4) :
    (Ten4 × Ten4) × LoopState :=
  ((loopOut afwd eps s H W x,
    loopGradIn abkw s.u s.v H W g (loopOut afwd eps s H W x) (loopScale afwd eps s H W x)),
   loopBackwardState abkw (loopForwardState afwd s B H W x) B H W g
     (loopOut afwd eps s H W x) (loopScale afwd eps s H W x))

/-- Evaluation-mode forward of `ControlNorm2DLoop`
(`(input - mu) / torch.sqrt(var + self.eps)`, no state mutation). -/
def loopEvalOut (eps : ℝ) (s : LoopState) (x : Ten4) : Ten4 :=
  fun n c h w => (x n c h w - s.m c) / Real.sqrt (s.var c + eps)

/-- Stale/fresh mean trajectories computed by the `ControlNorm2D` forward
(`lin_momentum(self.m_p, mu, self.m, momentum, momentum_pow, momentum_batch)`). -/
def linMuPair (afwd : ℝ) (B H W : ℕ) (s : LinState) (x : Ten4) : Mat × Mat :=
  lin_momentum B s.m_p (moments_mu H W x) s.m afwd (decayPow afwd B) (decayBatch afwd B)

/-- Decay-corrected per-sample variance of the `ControlNorm2D` forward
(`var_current = var + momentum * (mu - _mu_b) ** 2`). -/
def linVarCurrent (afwd : ℝ) (B H W : ℕ) (s : LinState) (x : Ten4) : Mat :=
  fun i c => moments_var H W x i c +
    afwd * (moments_mu H W x i c - (linMuPair afwd B H W s x).1 i c) ^ 2

/-- Stale/fresh variance trajectories of the `ControlNorm2D` forward. -/
def linVarPair (afwd : ℝ) (B H W : ℕ) (s : LinState) (x : Ten4) : Mat × Mat :=
  lin_momentum B s.var_p (linVarCurrent afwd B H W s x) s.var afwd
    (decayPow afwd B) (decayBatch afwd B)

/-- Per-sample scale of the `ControlNorm2D` forward
(`scale = torch.sqrt(_var_b + self.eps)`). -/
def linScale (afwd eps : ℝ) (B H W : ℕ) (s : LinState) (x : Ten4) : Mat :=
  fun i c => Real.sqrt ((linVarPair afwd B H W s x).1 i c + eps)

/-- Normalized output of the `ControlNorm2D` training forward
(`out = (input - _mu_b) / scale`). -/
def linOut (afwd eps : ℝ) (B H W : ℕ) (s : LinState) (x : Ten4) : Ten4 :=
  fun i c h w =>
    (x i c h w - (linMuPair afwd B H W s x).1 i c) / linScale afwd eps B H W s x i c

/-- State after the `ControlNorm2D` training forward: `m_p ← mu`,
`var_p ← var_current`, `m ← mu_b`, `var ← var_b`; other buffers untouched. -/
def linForwardState (afwd : ℝ) (B H W : ℕ) (s : LinState) (x : Ten4) : LinState :=
  { s with
    m_p := moments_mu H W x,
    var_p := linVarCurrent afwd B H W s x,
    m := (linMuPair afwd B H W s x).2,
    var := (linVarPair afwd B H W s x).2 }

/-- Result of the `lin_crtl` call inside the `ControlNorm2D` backward
(with the call site's explicit clamp floor `eps=1e-5`). -/
def linCtrlOut (abkw : ℝ) (B C H W : ℕ) (s : LinState) (out g : Ten4) :
    Ten4 × Mat × Mat × Mat :=
  lin_crtl B C H W g out s.v_p s.alpha_p s.beta_p abkw 1e-5

/-- The v-controlled gradient divided by the saved scale
(`grad_delta = grad_delta / scale`). -/
def linGradScaled (abkw : ℝ) (B C H W : ℕ) (s : LinState) (out : Ten4) (scale : Mat)
    (g : Ten4) : Ten4 :=
  fun i c h w => (linCtrlOut abkw B C H W s out g).1 i c h w / scale i c

/-- Channel means of the scaled gradient (`u_tmp = self.mean(grad_delta)`). -/
def linUTmp (abkw : ℝ) (B C H W : ℕ) (s : LinState) (out : Ten4) (scale : Mat)
    (g : Ten4) : Mat :=
  fun i c => spatialMean H W (fun h w => linGradScaled abkw B C H W s out scale g i c h w)

/-- Stale/fresh u trajectories of the `ControlNorm2D` backward
(`lin_momentum(self.u_p, u_tmp, self.u, self.abkw, self.ab_pow, self.ab_batch)`). -/
def linUPair (abkw : ℝ) (B C H W : ℕ) (s : LinState) (out : Ten4) (scale : Mat)
    (g : Ten4) : Mat × Mat :=
  lin_momentum B s.u_p (linUTmp abkw B C H W s out scale g) s.u abkw
    (decayPow abkw B) (decayBatch abkw B)

/-- Propagated input gradient of the `ControlNorm2D` backward
(`grad_delta = grad_delta - _u_b`). -/
def linGradOut (abkw : ℝ) (B C H W : ℕ) (s : LinState) (out : Ten4) (scale : Mat)
    (g : Ten4) : Ten4 :=
  fun i c h w => linGradScaled abkw B C H W s out scale g i c h w -
    (linUPair abkw B C H W s out scale g).1 i c

/-- State after the `ControlNorm2D` backward: `v_p, alpha_p, beta_p` from
`lin_crtl`, `u_p ← u_tmp`, `u ← u_b`; other buffers untouched. -/
def linBackwardState (abkw : ℝ) (B C H W : ℕ) (s : LinState) (out : Ten4) (scale : Mat)
    (g : Ten4) : LinState :=
  { s with
    v_p := (linCtrlOut abkw B C H W s out g).2.1,
    alpha_p := (linCtrlOut abkw B C H W s out g).2.2.1,
    beta_p := (linCtrlOut abkw B C H W s out g).2.2.2,
    u_p := linUTmp abkw B C H W s out scale g,
    u := (linUPair abkw B C H W s out scale g).2 }

/-- One training forward immediately followed by its matching backward on
`ControlNorm2D` (the backward consumes the saved `out` and `scale`). -/
def linStep (afwd abkw eps : ℝ) (B C H W : ℕ) (s : LinState) (x g : Ten4) :
    (Ten4 × Ten4) × LinState :=
  ((linOut afwd eps B H W s x,
    linGradOut abkw B C H W (linForwardState afwd B H W s x)
      (linOut afwd eps B H W s x) (linScale afwd eps B H W s x) g),
   linBackwardState abkw B C H W (linForwardState afwd B H W s x)
     (linOut afwd eps B H W s x) (linScale afwd eps B H W s x) g)

/-- Evaluation-mode forward of `ControlNorm2D`: normalizes every sample
with the last trajectory entries `self.m[-1]`, `self.var[-1]`; no state
is touched. -/
def linEvalOut (eps : ℝ) (B : ℕ) (s : LinState) (x : Ten4) : Ten4 :=
  fun n c h w => (x n c h w - s.m (B - 1) c) / Real.sqrt (s.var (B - 1) c + eps)

/-- Module-level forward of `ControlNorm2D` (`if self.training: ...`),
returning the output together with the possibly updated state. -/
def cn2dForward (training : Bool) (afwd eps : ℝ) (B H W : ℕ) (s : LinState)
    (x : Ten4) : Ten4 × LinState :=
  if training then (linOut afwd eps B H W s x, linForwardState afwd B H W s x)
  else (linEvalOut eps B s x, s)

/-- Module-level forward of `ControlNorm2DLoop`. -/
def loopModForward (training : Bool) (afwd eps : ℝ) (B H W : ℕ) (s : LoopState)
    (x : Ten4) : Ten4 × LoopState :=
  if training then (loopOut afwd eps s H W x, loopForwardState afwd s B H W x)
  else (loopEvalOut eps s x, s)

/-- State after a sequence of training-mode forward calls of `ControlNorm2D`. -/
def linRunF (afwd : ℝ) (B H W : ℕ) (s : LinState) : List Ten4 → LinState
  | [] => s
  | x :: rest => linRunF afwd B H W (linForwardState afwd B H W s x) rest

/-- State after a sequence of alternating training forward/backward call
pairs of `ControlNorm2D`. -/
def linRun (afwd abkw eps : ℝ) (B C H W : ℕ) (s : LinState) :
    List (Ten4 × Ten4) → LinState
  | [] => s
  | p :: rest => linRun afwd abkw eps B C H W (linStep afwd abkw eps B C H W s p.1 p.2).2 rest

/-- State after a sequence of alternating training forward/backward call
pairs of `ControlNorm2DLoop`. -/
def loopRun (afwd abkw eps : ℝ) (B H W : ℕ) (s : LoopState) :
    List (Ten4 × Ten4) → LoopState
  | [] => s
  | p :: rest => loopRun afwd abkw eps B H W (loopStep afwd abkw eps B H W s p.1 p.2).2 rest

/-- Claim C4: starting from any streaming state, an evaluation-mode forward
of `ControlNorm2D` (and of `ControlNorm2DLoop`) never mutates the state, a
repeated call from the state left by the first returns the identical
output and state, and the evaluation path normalizes every sample
uniformly with only the last entries of the cached mean and variance
trajectories. -/
theorem C4_eval_mode (afwd eps : ℝ) (B H W : ℕ) (s : LinState) (t : LoopState)
    (x : Ten4) :
    ((cn2dForward false afwd eps B H W s x).2 = s) ∧
    (cn2dForward false afwd eps B H W ((cn2dForward false afwd eps B H W s x).2) x =
      cn2dForward false afwd eps B H W s x) ∧
    (∀ n c h w, (cn2dForward false afwd eps B H W s x).1 n c h w =
      (x n c h w - s.m (B - 1) c) / Real.sqrt (s.var (B - 1) c + eps)) ∧
    ((loopModForward false afwd eps B H W t x).2 = t) ∧
    (loopModForward false afwd eps B H W ((loopModForward false afwd eps B H W t x).2) x =
      loopModForward false afwd eps B H W t x) ∧
    (∀ n c h w, (loopModForward false afwd eps B H W t x).1 n c h w =
      (x n c h w - t.m c) / Real.sqrt (t.var c + eps)) := by
  refine ⟨rfl, rfl, fun n c h w => rfl, rfl, rfl, fun n c h w => rfl⟩

/-- Claim C7: each training forward of `ControlNorm2D` writes exactly the
four forward buffers (`m`, `var`, `m_p`, `var_p`, to the trajectory/cache
values of this call) and leaves the five backward buffers unchanged; each
backward writes exactly the five backward buffers (`v_p`, `alpha_p`,
`beta_p`, `u`, `u_p`) and leaves the four forward buffers unchanged. -/
theorem C7_frame (afwd abkw : ℝ) (B C H W : ℕ) (s : LinState) (x g out : Ten4)
    (scale : Mat) :
    ((linForwardState afwd B H W s x).u = s.u ∧
     (linForwardState afwd B H W s x).u_p = s.u_p ∧
     (linForwardState afwd B H W s x).v_p = s.v_p ∧
     (linForwardState afwd B H W s x).alpha_p = s.alpha_p ∧
     (linForwardState afwd B H W s x).beta_p = s.beta_p ∧
     (linForwardState afwd B H W s x).m = (linMuPair afwd B H W s x).2 ∧
     (linForwardState afwd B H W s x).var = (linVarPair afwd B H W s x).2 ∧
     (linForwardState afwd B H W s x).m_p = moments_mu H W x ∧
     (linForwardState afwd B H W s x).var_p = linVarCurrent afwd B H W s x) ∧
    ((linBackwardState abkw B C H W s out scale g).m = s.m ∧
     (linBackwardState abkw B C H W s out scale g).var = s.var ∧
     (linBackwardState abkw B C H W s out scale g).m_p = s.m_p ∧
     (linBackwardState abkw B C H W s out scale g).var_p = s.var_p ∧
     (linBackwardState abkw B C H W s out scale g).v_p =
       (linCtrlOut abkw B C H W s out g).2.1 ∧
     (linBackwardState abkw B C H W s out scale g).alpha_p =
       (linCtrlOut abkw B C H W s out g).2.2.1 ∧
     (linBackwardState abkw B C H W s out scale g).beta_p =
       (linCtrlOut abkw B C H W s out g).2.2.2 ∧
     (linBackwardState abkw B C H W s out scale g).u_p =
       linUTmp abkw B C H W s out scale g ∧
     (linBackwardState abkw B C H W s out scale g).u =
       (linUPair abkw B C H W s out scale g).2) := by
  exact ⟨⟨rfl, rfl, rfl, rfl, rfl, rfl, rfl, rfl, rfl⟩,
    ⟨rfl, rfl, rfl, rfl, rfl, rfl, rfl, rfl, rfl⟩⟩

theorem moments_var_nonneg (H W : ℕ) (x : Ten4) (i c : ℕ) :
    0 ≤ moments_var H W x i c := by
  unfold moments_var spatialMean
  apply div_nonneg
  · apply sum_nonneg
    intro h _
    apply sum_nonneg
    intro w _
    positivity
  · positivity

theorem linVarCurrent_nonneg (afwd : ℝ) (h0 : 0 ≤ afwd) (B H W : ℕ) (s : LinState)
    (x : Ten4) (i c : ℕ) : 0 ≤ linVarCurrent afwd B H W s x i c :=
  add_nonneg (moments_var_nonneg H W x i c) (mul_nonneg h0 (sq_nonneg _))

theorem lin_momentum_fresh_nonneg (B : ℕ) (ρ : ℝ) (h0 : 0 ≤ ρ) (h1 : ρ ≤ 1)
    (mp mc ms : Mat)
    (hmp : ∀ i c, 0 ≤ mp i c) (hmc : ∀ i c, 0 ≤ mc i c) (hms : ∀ i c, 0 ≤ ms i c)
    (i c : ℕ) : 0 ≤ (lin_momentum B mp mc ms ρ (decayPow ρ B) (decayBatch ρ B)).2 i c := by
  simp only [lin_momentum, decayPow, decayBatch]
  apply add_nonneg
  · exact mul_nonneg (pow_nonneg h0 B) (hms i c)
  · apply mul_nonneg (by linarith)
    apply sum_nonneg
    intro t _
    apply mul_nonneg (pow_nonneg h0 _)
    unfold catW
    by_cases hc : i + t < B - 1
    · rw [if_pos hc]
      exact hmp _ _
    · rw [if_neg hc]
      exact hmc _ _

theorem linForwardState_var_nonneg (afwd : ℝ) (h0 : 0 ≤ afwd) (h1 : afwd ≤ 1)
    (B H W : ℕ) (s : LinState) (x : Ten4)
    (hv : ∀ i c, 0 ≤ s.var i c) (hvp : ∀ i c, 0 ≤ s.var_p i c) :
    (∀ i c, 0 ≤ (linForwardState afwd B H W s x).var i c) ∧
    (∀ i c, 0 ≤ (linForwardState afwd B H W s x).var_p i c) := by
  constructor
  · intro i c
    show 0 ≤ (linVarPair afwd B H W s x).2 i c
    unfold linVarPair
    exact lin_momentum_fresh_nonneg B afwd h0 h1 _ _ _ hvp
      (fun i c => linVarCurrent_nonneg afwd h0 B H W s x i c) hv i c
  · intro i c
    exact linVarCurrent_nonneg afwd h0 B H W s x i c

theorem linRunF_var_nonneg (afwd : ℝ) (h0 : 0 ≤ afwd) (h1 : afwd ≤ 1)
    (B H W : ℕ) (l : List Ten4) (s : LinState)
    (hv : ∀ i c, 0 ≤ s.var i c) (hvp : ∀ i c, 0 ≤ s.var_p i c) :
    (∀ i c, 0 ≤ (linRunF afwd B H W s l).var i c) ∧
    (∀ i c, 0 ≤ (linRunF afwd B H W s l).var_p i c) := by
  induction l generalizing s with
  | nil => exact ⟨hv, hvp⟩
  | cons x rest ih =>
    have h := linForwardState_var_nonneg afwd h0 h1 B H W s x hv hvp
    exact ih _ h.1 h.2

/-- Claim C5: after construction and after every finite sequence of
training-mode forward calls with decay rate in (0,1), every entry of the
variance trajectory buffer `var` and of the previous-moments buffer
`var_p` of `ControlNorm2D` is nonnegative. -/
theorem C5_var_nonneg (afwd : ℝ) (h0 : 0 < afwd) (h1 : afwd < 1) (B H W : ℕ)
    (l : List Ten4) :
    (∀ i c, 0 ≤ (linRunF afwd B H W linInit l).var i c) ∧
    (∀ i c, 0 ≤ (linRunF afwd B H W linInit l).var_p i c) :=
  linRunF_var_nonneg afwd (le_of_lt h0) (le_of_lt h1) B H W l linInit
    (fun _ _ => zero_le_one) (fun _ _ => zero_le_one)

theorem C5_witness : 0 ≤ (linRunF (1 / 2) 4 1 1 linInit []).var 0 0 :=
  (C5_var_nonneg (1 / 2) one_half_pos one_half_lt_one 4 1 1 []).1 0 0

theorem linRun_alpha_p_pos (afwd abkw eps : ℝ) (B C H W : ℕ)
    (l : List (Ten4 × Ten4)) (s : LinState) (hs : ∀ j c, 0 < s.alpha_p j c) :
    ∀ j c, 0 < (linRun afwd abkw eps B C H W s l).alpha_p j c := by
  induction l generalizing s with
  | nil => exact hs
  | cons p rest ih =>
    refine ih _ ?_
    intro j c
    have hrw : (linStep afwd abkw eps B C H W s p.1 p.2).2.alpha_p j c
        = ctrlAlpha abkw 1e-5 H W (linOut afwd eps B H W s p.1) j c := rfl
    rw [hrw]
    unfold ctrlAlpha clampMin
    exact lt_of_lt_of_le (by norm_num) (le_max_right _ _)

/-- Claim C6: in every state reachable by alternating training forward and
backward calls, every entry of the concatenated tensor `cat(alpha_p, alpha)`
to which `torch.log` is applied inside `lin_crtl` is strictly positive:
the fresh `alpha` is clamped below by the positive floor 1e-5 passed at
the call site (the helper's own default is 1e-32), and `alpha_p` starts
as ones and thereafter always stores a previously clamped `alpha`. -/
theorem C6_log_arg_pos (afwd abkw eps : ℝ) (B C H W : ℕ) (l : List (Ten4 × Ten4))
    (out : Ten4) (j c : ℕ) (hj : j < 2 * B) :
    0 < catRows B ((linRun afwd abkw eps B C H W linInit l).alpha_p)
        (ctrlAlpha abkw 1e-5 H W out) j c := by
  have hap := linRun_alpha_p_pos afwd abkw eps B C H W l linInit (fun _ _ => one_pos)
  exact catRows_alpha_pos B H W _ out abkw 1e-5 (by norm_num) c (fun j _ => hap j c) j

theorem C6_witness :
    0 < catRows 1 ((linRun (1 / 2) (1 / 2) 1 1 2 1 1 linInit []).alpha_p)
        (ctrlAlpha (1 / 2) 1e-5 1 1 oneT) 0 0 :=
  C6_log_arg_pos (1 / 2) (1 / 2) 1 1 2 1 1 [] oneT 0 0 (by norm_num)

theorem emaFold_snoc (ρ s a : ℝ) (xs : List ℝ) :
    emaFold ρ s (xs ++ [a]) = ρ * emaFold ρ s xs + (1 - ρ) * a := by
  rw [emaFold_append]
  simp [emaFold, emaStep]

theorem ctrlFold_snoc (s : ℝ) (p : ℝ × ℝ) (xs : List (ℝ × ℝ)) :
    ctrlFold s (xs ++ [p]) = p.1 * ctrlFold s xs + p.2 := by
  rw [ctrlFold_append]
  simp [ctrlFold, ctrlStep]

theorem emaFold_fixed (ρ a : ℝ) (xs : List ℝ) (hxs : ∀ x ∈ xs, x = a) :
    emaFold ρ a xs = a := by
  induction xs with
  | nil => rfl
  | cons y ys ih =>
    have hy : y = a := hxs y (List.mem_cons_self y ys)
    show emaFold ρ (emaStep ρ a y) ys = a
    rw [hy, (by unfold emaStep; ring : emaStep ρ a a = a)]
    exact ih fun x hx => hxs x (List.mem_cons_of_mem _ hx)

theorem ctrlFold_zero (ps : List (ℝ × ℝ)) (hps : ∀ p ∈ ps, p.2 = 0) :
    ctrlFold 0 ps = 0 := by
  induction ps with
  | nil => rfl
  | cons q qs ih =>
    have hq : q.2 = 0 := hps q (List.mem_cons_self q qs)
    show ctrlFold (ctrlStep 0 q) qs = 0
    rw [(by unfold ctrlStep; rw [hq]; ring : ctrlStep 0 q = 0)]
    exact ih fun p hp => hps p (List.mem_cons_of_mem _ hp)

theorem loopM_eq_emaFold (afwd : ℝ) (m0 : ℕ → ℝ) (mu : Mat) (n c : ℕ) :
    loopM afwd m0 mu n c = emaFold afwd (m0 c) (winHead mu n c) := by
  induction n with
  | zero => simp [loopM, winHead, emaFold]
  | succ n ih =>
    have hr : winHead mu (n + 1) c = winHead mu n c ++ [mu n c] := by
      simp [winHead, List.range_succ]
    rw [loopM, hr, emaFold_snoc, ← ih]
    ring

/-- Effective per-sample variance input of the loop recurrence:
`var_i + afwd * (mu_i - stale mean)^2` (the loop update
`afwd*v + (1-afwd)*var_i + afwd*(1-afwd)*(mu_i - m)^2` is one EMA step on
this quantity). -/
def loopVarInput (afwd : ℝ) (m0 : ℕ → ℝ) (mu varr : Mat) : Mat :=
  fun n c => varr n c + afwd * (mu n c - loopM afwd m0 mu n c) ^ 2

theorem loopVar_eq_emaFold (afwd : ℝ) (m0 v0 : ℕ → ℝ) (mu varr : Mat) (n c : ℕ) :
    loopVar afwd m0 v0 mu varr n c =
      emaFold afwd (v0 c) (winHead (loopVarInput afwd m0 mu varr) n c) := by
  induction n with
  | zero => simp [loopVar, winHead, emaFold]
  | succ n ih =>
    have hr : winHead (loopVarInput afwd m0 mu varr) (n + 1) c =
        winHead (loopVarInput afwd m0 mu varr) n c ++ [loopVarInput afwd m0 mu varr n c] := by
      simp [winHead, List.range_succ]
    rw [loopVar, hr, emaFold_snoc, ← ih, loopVarInput]
    ring

theorem spatialMean_sub_smul (H W : ℕ) (f g2 : ℕ → ℕ → ℝ) (k : ℝ) :
    spatialMean H W (fun h w => (f h w - k * g2 h w) * g2 h w) =
      spatialMean H W (fun h w => f h w * g2 h w) -
        k * spatialMean H W (fun h w => g2 h w * g2 h w) := by
  unfold spatialMean
  have hsum : ∑ h ∈ range H, ∑ w ∈ range W, (f h w - k * g2 h w) * g2 h w
      = (∑ h ∈ range H, ∑ w ∈ range W, f h w * g2 h w)
        - k * ∑ h ∈ range H, ∑ w ∈ range W, g2 h w * g2 h w := by
    rw [mul_sum, ← sum_sub_distrib]
    refine sum_congr rfl fun h _ => ?_
    rw [mul_sum, ← sum_sub_distrib]
    refine sum_congr rfl fun w _ => ?_
    ring
  rw [hsum, sub_div, mul_div_assoc]

theorem spatialMean_sub_const (H W : ℕ) (hHW : H * W ≠ 0) (f : ℕ → ℕ → ℝ) (k : ℝ) :
    spatialMean H W (fun h w => f h w - k) = spatialMean H W f - k := by
  unfold spatialMean
  have hne : ((H : ℝ) * W) ≠ 0 := by exact_mod_cast hHW
  have hsum : ∑ h ∈ range H, ∑ w ∈ range W, (f h w - k)
      = (∑ h ∈ range H, ∑ w ∈ range W, f h w) - (H : ℝ) * W * k := by
    have hrow : ∀ h ∈ range H, ∑ w ∈ range W, (f h w - k)
        = (∑ w ∈ range W, f h w) - (W : ℝ) * k := by
      intro h _
      rw [sum_sub_distrib, sum_const, card_range, nsmul_eq_mul]
    rw [sum_congr rfl hrow, sum_sub_distrib, sum_const, card_range, nsmul_eq_mul]
    ring
  rw [hsum, sub_div, mul_div_cancel_left₀ k hne]

theorem loopV_eq_ctrlFold (abkw : ℝ) (v0 : ℕ → ℝ) (H W : ℕ) (g out : Ten4) (n c : ℕ) :
    loopV abkw v0 H W g out n c =
      ctrlFold (v0 c) ((List.range n).map fun m =>
        (ctrlAlphaRaw abkw H W out m c, ctrlBeta H W g out m c)) := by
  induction n with
  | zero => simp [loopV, ctrlFold]
  | succ n ih =>
    have hr : ((List.range (n + 1)).map fun m =>
        (ctrlAlphaRaw abkw H W out m c, ctrlBeta H W g out m c)) =
        ((List.range n).map fun m =>
          (ctrlAlphaRaw abkw H W out m c, ctrlBeta H W g out m c)) ++
          [(ctrlAlphaRaw abkw H W out n c, ctrlBeta H W g out n c)] := by
      simp [List.range_succ]
    rw [loopV, hr, ctrlFold_snoc, ← ih]
    rw [spatialMean_sub_smul H W (fun h w => g n c h w) (fun h w => out n c h w)
      ((1 - abkw) * loopV abkw v0 H W g out n c)]
    unfold ctrlAlphaRaw ctrlBeta
    ring

theorem loopU_scaled_eq_emaFold (abkw : ℝ) (u0 : ℕ → ℝ) (H W : ℕ) (hHW : H * W ≠ 0)
    (gs : Ten4) (n c : ℕ) :
    (1 - abkw) * loopU abkw u0 H W gs n c =
      emaFold abkw ((1 - abkw) * u0 c)
        ((List.range n).map fun m => spatialMean H W (fun h w => gs m c h w)) := by
  induction n with
  | zero => simp [loopU, emaFold]
  | succ n ih =>
    have hr : ((List.range (n + 1)).map fun m => spatialMean H W (fun h w => gs m c h w)) =
        ((List.range n).map fun m => spatialMean H W (fun h w => gs m c h w)) ++
          [spatialMean H W (fun h w => gs n c h w)] := by
      simp [List.range_succ]
    rw [loopU, hr, emaFold_snoc, ← ih]
    rw [spatialMean_sub_const H W hHW (fun h w => gs n c h w)
      ((1 - abkw) * loopU abkw u0 H W gs n c)]
    ring

/-- Fresh trajectory row of `lin_momentum` when the state rows satisfy the
cross-call continuation invariant with stream value `M`: it equals the
stream continued through the current head window. -/
theorem lin_fresh_sim (ρ : ℝ) (B : ℕ) (mp mc ms : Mat) (M : ℕ → ℝ)
    (hinv : ∀ c, ∀ i < B, emaFold ρ (ms i c) (winTail mp B (i + 1) c) = M c)
    (c i : ℕ) (hi : i < B) :
    (lin_momentum B mp mc ms ρ (decayPow ρ B) (decayBatch ρ B)).2 i c =
      emaFold ρ (M c) (winHead mc (i + 1) c) := by
  rw [lin_momentum_fresh_split B ρ mp mc ms i c hi, hinv c i hi]

/-- Stale trajectory row of `lin_momentum` under the same invariant: it
equals the stream continued through the first `i` current samples only. -/
theorem lin_stale_sim (ρ : ℝ) (B : ℕ) (mp mc ms : Mat) (M : ℕ → ℝ)
    (hinv : ∀ c, ∀ i < B, emaFold ρ (ms i c) (winTail mp B (i + 1) c) = M c)
    (c i : ℕ) (hi : i < B) :
    (lin_momentum B mp mc ms ρ (decayPow ρ B) (decayBatch ρ B)).1 i c =
      emaFold ρ (M c) (winHead mc i c) := by
  cases i with
  | zero =>
    have hB1 : B - 1 < B := by omega
    have h := hinv c (B - 1) hB1
    rw [winTail, (by omega : B - (B - 1 + 1) = 0)] at h
    simp only [List.range_zero, List.map_nil] at h
    have hstale : (lin_momentum B mp mc ms ρ (decayPow ρ B) (decayBatch ρ B)).1 0 c =
        ms (B - 1) c := by
      simp [lin_momentum]
    rw [hstale]
    have hnil : winHead mc 0 c = [] := by simp [winHead]
    rw [hnil]
    exact h.symm ▸ (by simpa [emaFold] using h)
  | succ j =>
    have hstale : (lin_momentum B mp mc ms ρ (decayPow ρ B) (decayBatch ρ B)).1 (j + 1) c =
        (lin_momentum B mp mc ms ρ (decayPow ρ B) (decayBatch ρ B)).2 j c := by
      simp [lin_momentum]
    rw [hstale, lin_fresh_sim ρ B mp mc ms M hinv c j (by omega)]

/-- After a `lin_momentum` call, the fresh rows together with the tail of
the current inputs reconstruct the stream value after all `B` samples:
the continuation invariant is preserved with `mu_prev := mc`. -/
theorem lin_inv_next (ρ : ℝ) (B : ℕ) (mp mc ms : Mat) (M : ℕ → ℝ)
    (hinv : ∀ c, ∀ i < B, emaFold ρ (ms i c) (winTail mp B (i + 1) c) = M c)
    (c i : ℕ) (hi : i < B) :
    emaFold ρ ((lin_momentum B mp mc ms ρ (decayPow ρ B) (decayBatch ρ B)).2 i c)
        (winTail mc B (i + 1) c) =
      emaFold ρ (M c) (winHead mc B c) := by
  rw [lin_fresh_sim ρ B mp mc ms M hinv c i hi, ← emaFold_append,
    winHead_append_winTail B i hi]

/-- Zipped tail window of two (B, C) arrays, rows `s … B-1`. -/
def winTailZip (p q : Mat) (B s c : ℕ) : List (ℝ × ℝ) :=
  (List.range (B - s)).map fun t => (p (s + t) c, q (s + t) c)

/-- The pair window read by `lin_crtl` at output row `i < B` splits into
the cached tail (rows i+1 … B-1 of `alpha_p`/`beta_p`) followed by the
current head (samples 0 … i of the fresh alpha/beta). -/
theorem ctrl_window_split (B i : ℕ) (hi : i < B) (ap bp ac bc : Mat) (c : ℕ) :
    ((List.range B).map fun m =>
        (catRows B ap ac (i + 1 + m) c, catRows B bp bc (i + 1 + m) c)) =
      winTailZip ap bp B (i + 1) c ++ ((List.range (i + 1)).map fun j => (ac j c, bc j c)) := by
  have hsplit := list_range_split (B - 1 - i) (i + 1)
    (fun m => (catRows B ap ac (i + 1 + m) c, catRows B bp bc (i + 1 + m) c))
  rw [(by omega : B - 1 - i + (i + 1) = B)] at hsplit
  rw [hsplit]
  congr 1
  · simp only [winTailZip]
    rw [(by omega : B - (i + 1) = B - 1 - i)]
    apply List.map_congr_left
    intro t ht
    have htl := List.mem_range.mp ht
    have hlt : i + 1 + t < B := by omega
    simp only [catRows, if_pos hlt]
  · apply List.map_congr_left
    intro t ht
    have htl := List.mem_range.mp ht
    have hge : ¬ (i + 1 + (B - 1 - i + t) < B) := by omega
    simp only [catRows, if_neg hge]
    congr 2
    all_goals omega

/-- Simulation invariant tying the linearized `ControlNorm2D` state to the
sequential `ControlNorm2DLoop` state between calls: every trajectory row,
continued through the cached previous-batch window, reproduces the loop's
scalar stream value (the u stream is stored scaled by `1 - abkw` in the
linearized module), and the cached decay terms are strictly positive. -/
def SimInv (afwd abkw : ℝ) (B : ℕ) (s : LinState) (t : LoopState) : Prop :=
  (∀ c, ∀ i < B, emaFold afwd (s.m i c) (winTail s.m_p B (i + 1) c) = t.m c) ∧
  (∀ c, ∀ i < B, emaFold afwd (s.var i c) (winTail s.var_p B (i + 1) c) = t.var c) ∧
  (∀ c, ∀ i < B, emaFold abkw (s.u i c) (winTail s.u_p B (i + 1) c) = (1 - abkw) * t.u c) ∧
  (∀ c, ∀ i < B, ctrlFold (s.v_p i c) (winTailZip s.alpha_p s.beta_p B (i + 1) c) = t.v c) ∧
  (∀ j c, 0 < s.alpha_p j c)

theorem winTail_all_eq (a : ℝ) (m : Mat) (hm : ∀ i c, m i c = a) (B s c : ℕ) :
    ∀ x ∈ winTail m B s c, x = a := by
  intro x hx
  obtain ⟨t, _, rfl⟩ := List.mem_map.mp hx
  exact hm _ _

theorem SimInv_init (afwd abkw : ℝ) (B : ℕ) : SimInv afwd abkw B linInit loopInit := by
  refine ⟨?_, ?_, ?_, ?_, fun _ _ => one_pos⟩
  · intro c i _
    exact emaFold_fixed afwd 0 _ (winTail_all_eq 0 _ (fun _ _ => rfl) B (i + 1) c)
  · intro c i _
    exact emaFold_fixed afwd 1 _ (winTail_all_eq 1 _ (fun _ _ => rfl) B (i + 1) c)
  · intro c i _
    show emaFold abkw 0 _ = (1 - abkw) * 0
    rw [mul_zero]
    exact emaFold_fixed abkw 0 _ (winTail_all_eq 0 _ (fun _ _ => rfl) B (i + 1) c)
  · intro c i _
    apply ctrlFold_zero
    intro p hp
    obtain ⟨t, _, rfl⟩ := List.mem_map.mp hp
    rfl

theorem winHead_congr (k c : ℕ) (p q : Mat) (h : ∀ j, j < k → p j c = q j c) :
    winHead p k c = winHead q k c := by
  unfold winHead
  apply List.map_congr_left
  intro j hj
  exact h j (List.mem_range.mp hj)

theorem linMu_stale_eq_loopM (afwd : ℝ) (B H W : ℕ) (s : LinState) (t : LoopState)
    (x : Ten4)
    (hmean : ∀ c, ∀ i < B, emaFold afwd (s.m i c) (winTail s.m_p B (i + 1) c) = t.m c)
    (c i : ℕ) (hi : i < B) :
    (linMuPair afwd B H W s x).1 i c = loopM afwd t.m (moments_mu H W x) i c := by
  rw [linMuPair, lin_stale_sim afwd B s.m_p (moments_mu H W x) s.m t.m hmean c i hi,
    loopM_eq_emaFold]

theorem linMu_fresh_eq_loopM (afwd : ℝ) (B H W : ℕ) (s : LinState) (t : LoopState)
    (x : Ten4)
    (hmean : ∀ c, ∀ i < B, emaFold afwd (s.m i c) (winTail s.m_p B (i + 1) c) = t.m c)
    (c i : ℕ) (hi : i < B) :
    (linMuPair afwd B H W s x).2 i c = loopM afwd t.m (moments_mu H W x) (i + 1) c := by
  rw [linMuPair, lin_fresh_sim afwd B s.m_p (moments_mu H W x) s.m t.m hmean c i hi,
    loopM_eq_emaFold]

theorem linVarCurrent_eq_input (afwd : ℝ) (B H W : ℕ) (s : LinState) (t : LoopState)
    (x : Ten4)
    (hmean : ∀ c, ∀ i < B, emaFold afwd (s.m i c) (winTail s.m_p B (i + 1) c) = t.m c)
    (c i : ℕ) (hi : i < B) :
    linVarCurrent afwd B H W s x i c =
      loopVarInput afwd t.m (moments_mu H W x) (moments_var H W x) i c := by
  unfold linVarCurrent loopVarInput
  rw [linMu_stale_eq_loopM afwd B H W s t x hmean c i hi]

theorem linVar_stale_eq_loopVar (afwd : ℝ) (B H W : ℕ) (s : LinState) (t : LoopState)
    (x : Ten4)
    (hmean : ∀ c, ∀ i < B, emaFold afwd (s.m i c) (winTail s.m_p B (i + 1) c) = t.m c)
    (hvar : ∀ c, ∀ i < B, emaFold afwd (s.var i c) (winTail s.var_p B (i + 1) c) = t.var c)
    (c i : ℕ) (hi : i < B) :
    (linVarPair afwd B H W s x).1 i c =
      loopVar afwd t.m t.var (moments_mu H W x) (moments_var H W x) i c := by
  rw [linVarPair,
    lin_stale_sim afwd B s.var_p (linVarCurrent afwd B H W s x) s.var t.var hvar c i hi,
    loopVar_eq_emaFold]
  congr 1
  exact winHead_congr i c _ _
    (fun j hj => linVarCurrent_eq_input afwd B H W s t x hmean c j (lt_trans hj hi))

theorem linVar_fresh_eq_loopVar (afwd : ℝ) (B H W : ℕ) (s : LinState) (t : LoopState)
    (x : Ten4)
    (hmean : ∀ c, ∀ i < B, emaFold afwd (s.m i c) (winTail s.m_p B (i + 1) c) = t.m c)
    (hvar : ∀ c, ∀ i < B, emaFold afwd (s.var i c) (winTail s.var_p B (i + 1) c) = t.var c)
    (c i : ℕ) (hi : i < B) :
    (linVarPair afwd B H W s x).2 i c =
      loopVar afwd t.m t.var (moments_mu H W x) (moments_var H W x) (i + 1) c := by
  rw [linVarPair,
    lin_fresh_sim afwd B s.var_p (linVarCurrent afwd B H W s x) s.var t.var hvar c i hi,
    loopVar_eq_emaFold]
  congr 1
  exact winHead_congr (i + 1) c _ _
    (fun j hj => linVarCurrent_eq_input afwd B H W s t x hmean c j
      (lt_of_lt_of_le hj (Nat.succ_le_of_lt hi)))

theorem linScale_eq_loopScale (afwd eps : ℝ) (B H W : ℕ) (s : LinState) (t : LoopState)
    (x : Ten4)
    (hmean : ∀ c, ∀ i < B, emaFold afwd (s.m i c) (winTail s.m_p B (i + 1) c) = t.m c)
    (hvar : ∀ c, ∀ i < B, emaFold afwd (s.var i c) (winTail s.var_p B (i + 1) c) = t.var c)
    (i : ℕ) (hi : i < B) (c : ℕ) :
    linScale afwd eps B H W s x i c = loopScale afwd eps t H W x i c := by
  unfold linScale loopScale
  rw [linVar_stale_eq_loopVar afwd B H W s t x hmean hvar c i hi]

theorem linOut_eq_loopOut (afwd eps : ℝ) (B H W : ℕ) (s : LinState) (t : LoopState)
    (x : Ten4)
    (hmean : ∀ c, ∀ i < B, emaFold afwd (s.m i c) (winTail s.m_p B (i + 1) c) = t.m c)
    (hvar : ∀ c, ∀ i < B, emaFold afwd (s.var i c) (winTail s.var_p B (i + 1) c) = t.var c)
    (i : ℕ) (hi : i < B) (c h w : ℕ) :
    linOut afwd eps B H W s x i c h w = loopOut afwd eps t H W x i c h w := by
  unfold linOut loopOut
  rw [linScale_eq_loopScale afwd eps B H W s t x hmean hvar i hi c,
    linMu_stale_eq_loopM afwd B H W s t x hmean c i hi]

theorem linMu_inv_next (afwd : ℝ) (B H W : ℕ) (s : LinState) (t : LoopState) (x : Ten4)
    (hmean : ∀ c, ∀ i < B, emaFold afwd (s.m i c) (winTail s.m_p B (i + 1) c) = t.m c)
    (c i : ℕ) (hi : i < B) :
    emaFold afwd ((linMuPair afwd B H W s x).2 i c)
        (winTail (moments_mu H W x) B (i + 1) c) =
      loopM afwd t.m (moments_mu H W x) B c := by
  rw [linMuPair, lin_inv_next afwd B s.m_p (moments_mu H W x) s.m t.m hmean c i hi,
    loopM_eq_emaFold]

theorem linVar_inv_next (afwd : ℝ) (B H W : ℕ) (s : LinState) (t : LoopState) (x : Ten4)
    (hmean : ∀ c, ∀ i < B, emaFold afwd (s.m i c) (winTail s.m_p B (i + 1) c) = t.m c)
    (hvar : ∀ c, ∀ i < B, emaFold afwd (s.var i c) (winTail s.var_p B (i + 1) c) = t.var c)
    (c i : ℕ) (hi : i < B) :
    emaFold afwd ((linVarPair afwd B H W s x).2 i c)
        (winTail (linVarCurrent afwd B H W s x) B (i + 1) c) =
      loopVar afwd t.m t.var (moments_mu H W x) (moments_var H W x) B c := by
  rw [linVarPair,
    lin_inv_next afwd B s.var_p (linVarCurrent afwd B H W s x) s.var t.var hvar c i hi,
    loopVar_eq_emaFold]
  congr 1
  exact winHead_congr B c _ _
    (fun j hj => linVarCurrent_eq_input afwd B H W s t x hmean c j hj)

theorem loopV_congr (abkw : ℝ) (v0 : ℕ → ℝ) (H W : ℕ) (g out outp : Ten4) (n c : ℕ)
    (h : ∀ j, j < n → ∀ hh ww, out j c hh ww = outp j c hh ww) :
    loopV abkw v0 H W g out n c = loopV abkw v0 H W g outp n c := by
  induction n with
  | zero => rfl
  | succ n ih =>
    simp only [loopV]
    rw [ih (fun j hj hh ww => h j (by omega) hh ww)]
    congr 1
    unfold spatialMean
    congr 1
    refine sum_congr rfl fun hh _ => sum_congr rfl fun ww _ => ?_
    simp only [h n (Nat.lt_succ_self n)]

theorem loopU_congr (abkw : ℝ) (u0 : ℕ → ℝ) (H W : ℕ) (gs gsp : Ten4) (n c : ℕ)
    (h : ∀ j, j < n → ∀ hh ww, gs j c hh ww = gsp j c hh ww) :
    loopU abkw u0 H W gs n c = loopU abkw u0 H W gsp n c := by
  induction n with
  | zero => rfl
  | succ n ih =>
    simp only [loopU]
    rw [ih (fun j hj hh ww => h j (by omega) hh ww)]
    congr 1
    unfold spatialMean
    congr 1
    refine sum_congr rfl fun hh _ => sum_congr rfl fun ww _ => ?_
    simp only [h n (Nat.lt_succ_self n)]

theorem linV_new_eq_loopV (abkw : ℝ) (B C H W : ℕ) (s : LinState) (t : LoopState)
    (out g : Ten4)
    (hv : ∀ c, ∀ i < B, ctrlFold (s.v_p i c) (winTailZip s.alpha_p s.beta_p B (i + 1) c) = t.v c)
    (hap : ∀ j c, 0 < s.alpha_p j c)
    (hnc : ∀ i < B, ∀ c, 1e-5 ≤ ctrlAlphaRaw abkw H W out i c)
    (c i : ℕ) (hi : i < B) :
    (linCtrlOut abkw B C H W s out g).2.1 i c = loopV abkw t.v H W g out (i + 1) c := by
  rw [linCtrlOut,
    lin_crtl_v_new_eq B C H W g out s.v_p s.alpha_p s.beta_p abkw 1e-5 (by norm_num) c
      (fun j _ => hap j c) i hi,
    ctrl_window_split B i hi s.alpha_p s.beta_p (ctrlAlpha abkw 1e-5 H W out)
      (ctrlBeta H W g out) c,
    ctrlFold_append, hv c i hi, loopV_eq_ctrlFold]
  congr 1
  apply List.map_congr_left
  intro j hj
  have hjB : j < B := lt_of_lt_of_le (List.mem_range.mp hj) (Nat.succ_le_of_lt hi)
  have hca : ctrlAlpha abkw 1e-5 H W out j c = ctrlAlphaRaw abkw H W out j c :=
    max_eq_left (hnc j hjB c)
  rw [hca]

theorem linV_stale_eq_loopV (abkw : ℝ) (B C H W : ℕ) (s : LinState) (t : LoopState)
    (out g : Ten4)
    (hv : ∀ c, ∀ i < B, ctrlFold (s.v_p i c) (winTailZip s.alpha_p s.beta_p B (i + 1) c) = t.v c)
    (hap : ∀ j c, 0 < s.alpha_p j c)
    (hnc : ∀ i < B, ∀ c, 1e-5 ≤ ctrlAlphaRaw abkw H W out i c)
    (c i : ℕ) (hi : i < B) :
    (if i = 0 then s.v_p (B - 1) c else (linCtrlOut abkw B C H W s out g).2.1 (i - 1) c) =
      loopV abkw t.v H W g out i c := by
  cases i with
  | zero =>
    rw [if_pos rfl]
    have h := hv c (B - 1) (by omega)
    rw [winTailZip, (by omega : B - (B - 1 + 1) = 0)] at h
    simp only [List.range_zero, List.map_nil] at h
    exact h
  | succ j =>
    rw [if_neg (Nat.succ_ne_zero j), Nat.add_sub_cancel]
    exact linV_new_eq_loopV abkw B C H W s t out g hv hap hnc c j (by omega)

theorem linCtrl_grad_eq (abkw : ℝ) (B C H W : ℕ) (s : LinState) (t : LoopState)
    (out g : Ten4)
    (hv : ∀ c, ∀ i < B, ctrlFold (s.v_p i c) (winTailZip s.alpha_p s.beta_p B (i + 1) c) = t.v c)
    (hap : ∀ j c, 0 < s.alpha_p j c)
    (hnc : ∀ i < B, ∀ c, 1e-5 ≤ ctrlAlphaRaw abkw H W out i c)
    (c i : ℕ) (hi : i < B) (h w : ℕ) :
    (linCtrlOut abkw B C H W s out g).1 i c h w =
      g i c h w - (1 - abkw) * loopV abkw t.v H W g out i c * out i c h w := by
  have h0 : (linCtrlOut abkw B C H W s out g).1 i c h w =
      g i c h w - (if i = 0 then s.v_p (B - 1) c
        else (linCtrlOut abkw B C H W s out g).2.1 (i - 1) c) * (1 - abkw) * out i c h w := rfl
  rw [h0, linV_stale_eq_loopV abkw B C H W s t out g hv hap hnc c i hi]
  ring

theorem linGS_eq_loopGS (abkw : ℝ) (B C H W : ℕ) (s : LinState) (t : LoopState)
    (out g : Ten4) (scale : Mat)
    (hv : ∀ c, ∀ i < B, ctrlFold (s.v_p i c) (winTailZip s.alpha_p s.beta_p B (i + 1) c) = t.v c)
    (hap : ∀ j c, 0 < s.alpha_p j c)
    (hnc : ∀ i < B, ∀ c, 1e-5 ≤ ctrlAlphaRaw abkw H W out i c)
    (c i : ℕ) (hi : i < B) (h w : ℕ) :
    linGradScaled abkw B C H W s out scale g i c h w =
      loopGradScaled abkw t.v H W g out scale i c h w := by
  unfold linGradScaled loopGradScaled
  rw [linCtrl_grad_eq abkw B C H W s t out g hv hap hnc c i hi h w]

theorem linUTmp_eq (abkw : ℝ) (B C H W : ℕ) (s : LinState) (t : LoopState)
    (out g : Ten4) (scale : Mat)
    (hv : ∀ c, ∀ i < B, ctrlFold (s.v_p i c) (winTailZip s.alpha_p s.beta_p B (i + 1) c) = t.v c)
    (hap : ∀ j c, 0 < s.alpha_p j c)
    (hnc : ∀ i < B, ∀ c, 1e-5 ≤ ctrlAlphaRaw abkw H W out i c)
    (c i : ℕ) (hi : i < B) :
    linUTmp abkw B C H W s out scale g i c =
      spatialMean H W (fun h w => loopGradScaled abkw t.v H W g out scale i c h w) := by
  unfold linUTmp
  congr 1
  funext h w
  exact linGS_eq_loopGS abkw B C H W s t out g scale hv hap hnc c i hi h w

theorem linU_stale_eq (abkw : ℝ) (B C H W : ℕ) (hHW : H * W ≠ 0) (s : LinState)
    (t : LoopState) (out g : Ten4) (scale : Mat)
    (hu : ∀ c, ∀ i < B, emaFold abkw (s.u i c) (winTail s.u_p B (i + 1) c) = (1 - abkw) * t.u c)
    (hv : ∀ c, ∀ i < B, ctrlFold (s.v_p i c) (winTailZip s.alpha_p s.beta_p B (i + 1) c) = t.v c)
    (hap : ∀ j c, 0 < s.alpha_p j c)
    (hnc : ∀ i < B, ∀ c, 1e-5 ≤ ctrlAlphaRaw abkw H W out i c)
    (c i : ℕ) (hi : i < B) :
    (linUPair abkw B C H W s out scale g).1 i c =
      (1 - abkw) * loopU abkw t.u H W (loopGradScaled abkw t.v H W g out scale) i c := by
  rw [linUPair, lin_stale_sim abkw B s.u_p (linUTmp abkw B C H W s out scale g) s.u
    (fun c => (1 - abkw) * t.u c) hu c i hi,
    loopU_scaled_eq_emaFold abkw t.u H W hHW _ i c]
  congr 1
  unfold winHead
  apply List.map_congr_left
  intro j hj
  exact linUTmp_eq abkw B C H W s t out g scale hv hap hnc c j
    (lt_trans (List.mem_range.mp hj) hi)

theorem linGradOut_eq (abkw : ℝ) (B C H W : ℕ) (hHW : H * W ≠ 0) (s : LinState)
    (t : LoopState) (out g : Ten4) (scale : Mat)
    (hu : ∀ c, ∀ i < B, emaFold abkw (s.u i c) (winTail s.u_p B (i + 1) c) = (1 - abkw) * t.u c)
    (hv : ∀ c, ∀ i < B, ctrlFold (s.v_p i c) (winTailZip s.alpha_p s.beta_p B (i + 1) c) = t.v c)
    (hap : ∀ j c, 0 < s.alpha_p j c)
    (hnc : ∀ i < B, ∀ c, 1e-5 ≤ ctrlAlphaRaw abkw H W out i c)
    (i : ℕ) (hi : i < B) (c h w : ℕ) :
    linGradOut abkw B C H W s out scale g i c h w =
      loopGradIn abkw t.u t.v H W g out scale i c h w := by
  unfold linGradOut loopGradIn
  rw [linGS_eq_loopGS abkw B C H W s t out g scale hv hap hnc c i hi h w,
    linU_stale_eq abkw B C H W hHW s t out g scale hu hv hap hnc c i hi]

theorem winHeadZip_append_winTailZip (B i : ℕ) (hi : i < B) (p q : Mat) (c : ℕ) :
    ((List.range (i + 1)).map fun j => (p j c, q j c)) ++ winTailZip p q B (i + 1) c =
      (List.range B).map fun j => (p j c, q j c) := by
  conv_rhs => rw [(by omega : B = (i + 1) + (B - 1 - i)), list_range_split]
  congr 1
  simp only [winTailZip]
  rw [(by omega : B - (i + 1) = B - 1 - i)]

theorem linV_inv_next (abkw : ℝ) (B C H W : ℕ) (s : LinState) (t : LoopState)
    (out g : Ten4)
    (hv : ∀ c, ∀ i < B, ctrlFold (s.v_p i c) (winTailZip s.alpha_p s.beta_p B (i + 1) c) = t.v c)
    (hap : ∀ j c, 0 < s.alpha_p j c)
    (hnc : ∀ i < B, ∀ c, 1e-5 ≤ ctrlAlphaRaw abkw H W out i c)
    (c i : ℕ) (hi : i < B) :
    ctrlFold ((linCtrlOut abkw B C H W s out g).2.1 i c)
        (winTailZip (ctrlAlpha abkw 1e-5 H W out) (ctrlBeta H W g out) B (i + 1) c) =
      loopV abkw t.v H W g out B c := by
  rw [linV_new_eq_loopV abkw B C H W s t out g hv hap hnc c i hi,
    loopV_eq_ctrlFold abkw t.v H W g out (i + 1) c, ← ctrlFold_append,
    loopV_eq_ctrlFold abkw t.v H W g out B c]
  congr 1
  have htail : winTailZip (ctrlAlpha abkw 1e-5 H W out) (ctrlBeta H W g out) B (i + 1) c =
      winTailZip (ctrlAlphaRaw abkw H W out) (ctrlBeta H W g out) B (i + 1) c := by
    unfold winTailZip
    apply List.map_congr_left
    intro u hu2
    have huB : i + 1 + u < B := by
      have := List.mem_range.mp hu2; omega
    have hca : ctrlAlpha abkw 1e-5 H W out (i + 1 + u) c =
        ctrlAlphaRaw abkw H W out (i + 1 + u) c := max_eq_left (hnc (i + 1 + u) huB c)
    rw [hca]
  rw [htail, winHeadZip_append_winTailZip B i hi]

theorem linU_inv_next (abkw : ℝ) (B C H W : ℕ) (hHW : H * W ≠ 0) (s : LinState)
    (t : LoopState) (out g : Ten4) (scale : Mat)
    (hu : ∀ c, ∀ i < B, emaFold abkw (s.u i c) (winTail s.u_p B (i + 1) c) = (1 - abkw) * t.u c)
    (hv : ∀ c, ∀ i < B, ctrlFold (s.v_p i c) (winTailZip s.alpha_p s.beta_p B (i + 1) c) = t.v c)
    (hap : ∀ j c, 0 < s.alpha_p j c)
    (hnc : ∀ i < B, ∀ c, 1e-5 ≤ ctrlAlphaRaw abkw H W out i c)
    (c i : ℕ) (hi : i < B) :
    emaFold abkw ((linUPair abkw B C H W s out scale g).2 i c)
        (winTail (linUTmp abkw B C H W s out scale g) B (i + 1) c) =
      (1 - abkw) * loopU abkw t.u H W (loopGradScaled abkw t.v H W g out scale) B c := by
  rw [linUPair, lin_inv_next abkw B s.u_p (linUTmp abkw B C H W s out scale g) s.u
    (fun c => (1 - abkw) * t.u c) hu c i hi,
    loopU_scaled_eq_emaFold abkw t.u H W hHW _ B c]
  congr 1
  unfold winHead
  apply List.map_congr_left
  intro j hj
  exact linUTmp_eq abkw B C H W s t out g scale hv hap hnc c j (List.mem_range.mp hj)

theorem loopGradScaled_congr (abkw : ℝ) (v0 : ℕ → ℝ) (H W : ℕ) (g out outp : Ten4)
    (scale scalep : Mat) (B : ℕ)
    (hout : ∀ j, j < B → ∀ c hh ww, out j c hh ww = outp j c hh ww)
    (hscale : ∀ j, j < B → ∀ c, scale j c = scalep j c)
    (i : ℕ) (hi : i < B) (c h w : ℕ) :
    loopGradScaled abkw v0 H W g out scale i c h w =
      loopGradScaled abkw v0 H W g outp scalep i c h w := by
  unfold loopGradScaled
  rw [hscale i hi c, hout i hi c h w,
    loopV_congr abkw v0 H W g out outp i c (fun j hj hh ww => hout j (by omega) c hh ww)]

theorem loopGradIn_congr (abkw : ℝ) (u0 v0 : ℕ → ℝ) (H W : ℕ) (g out outp : Ten4)
    (scale scalep : Mat) (B : ℕ)
    (hout : ∀ j, j < B → ∀ c hh ww, out j c hh ww = outp j c hh ww)
    (hscale : ∀ j, j < B → ∀ c, scale j c = scalep j c)
    (i : ℕ) (hi : i < B) (c h w : ℕ) :
    loopGradIn abkw u0 v0 H W g out scale i c h w =
      loopGradIn abkw u0 v0 H W g outp scalep i c h w := by
  unfold loopGradIn
  rw [loopGradScaled_congr abkw v0 H W g out outp scale scalep B hout hscale i hi c h w,
    loopU_congr abkw u0 H W _ _ i c (fun j hj hh ww =>
      loopGradScaled_congr abkw v0 H W g out outp scale scalep B hout hscale j
        (by omega) c hh ww)]

/-- Condition under which the clamp inside `lin_crtl` is inactive for one
backward call: every per-sample raw decay stays at or above the call-site
floor 1e-5. -/
def NoClampAt (abkw : ℝ) (H W B : ℕ) (out : Ten4) : Prop :=
  ∀ i < B, ∀ c, 1e-5 ≤ ctrlAlphaRaw abkw H W out i c

/-- The clamp never fires along a whole run of forward/backward call pairs
of the linearized module. -/
def NoClampRun (afwd abkw eps : ℝ) (B C H W : ℕ) (s : LinState) :
    List (Ten4 × Ten4) → Prop
  | [] => True
  | p :: rest => NoClampAt abkw H W B (linOut afwd eps B H W s p.1) ∧
      NoClampRun afwd abkw eps B C H W (linStep afwd abkw eps B C H W s p.1 p.2).2 rest

/-- One forward/backward pair preserves the simulation invariant and makes
the two implementations agree on the normalized output and the propagated
gradient at every meaningful index. -/
theorem step_sim (afwd abkw eps : ℝ) (B C H W : ℕ) (hHW : H * W ≠ 0)
    (s : LinState) (t : LoopState) (hsim : SimInv afwd abkw B s t) (x g : Ten4)
    (hnc : NoClampAt abkw H W B (linOut afwd eps B H W s x)) :
    (∀ i, i < B → ∀ c h w, (linStep afwd abkw eps B C H W s x g).1.1 i c h w =
        (loopStep afwd abkw eps B H W t x g).1.1 i c h w) ∧
    (∀ i, i < B → ∀ c h w, (linStep afwd abkw eps B C H W s x g).1.2 i c h w =
        (loopStep afwd abkw eps B H W t x g).1.2 i c h w) ∧
    SimInv afwd abkw B (linStep afwd abkw eps B C H W s x g).2
      (loopStep afwd abkw eps B H W t x g).2 := by
  obtain ⟨hmean, hvar, hu, hv, hap⟩ := hsim
  have hout : ∀ j, j < B → ∀ c hh ww, linOut afwd eps B H W s x j c hh ww =
      loopOut afwd eps t H W x j c hh ww :=
    fun j hj c hh ww => linOut_eq_loopOut afwd eps B H W s t x hmean hvar j hj c hh ww
  have hscale : ∀ j, j < B → ∀ c, linScale afwd eps B H W s x j c =
      loopScale afwd eps t H W x j c :=
    fun j hj c => linScale_eq_loopScale afwd eps B H W s t x hmean hvar j hj c
  refine ⟨fun i hi c h w => hout i hi c h w, ?_, ?_, ?_, ?_, ?_, ?_⟩
  · intro i hi c h w
    calc (linStep afwd abkw eps B C H W s x g).1.2 i c h w
        = loopGradIn abkw t.u t.v H W g (linOut afwd eps B H W s x)
            (linScale afwd eps B H W s x) i c h w :=
          linGradOut_eq abkw B C H W hHW (linForwardState afwd B H W s x) t
            (linOut afwd eps B H W s x) g (linScale afwd eps B H W s x)
            hu hv hap hnc i hi c h w
      _ = loopGradIn abkw t.u t.v H W g (loopOut afwd eps t H W x)
            (loopScale afwd eps t H W x) i c h w :=
          loopGradIn_congr abkw t.u t.v H W g _ _ _ _ B hout hscale i hi c h w
  · intro c i hi
    exact linMu_inv_next afwd B H W s t x hmean c i hi
  · intro c i hi
    exact linVar_inv_next afwd B H W s t x hmean hvar c i hi
  · intro c i hi
    have h2 := linU_inv_next abkw B C H W hHW (linForwardState afwd B H W s x) t
      (linOut afwd eps B H W s x) g (linScale afwd eps B H W s x) hu hv hap hnc c i hi
    have h3 : loopU abkw t.u H W
        (loopGradScaled abkw t.v H W g (linOut afwd eps B H W s x)
          (linScale afwd eps B H W s x)) B c
        = loopU abkw t.u H W
          (loopGradScaled abkw t.v H W g (loopOut afwd eps t H W x)
            (loopScale afwd eps t H W x)) B c :=
      loopU_congr abkw t.u H W _ _ B c (fun j hj hh ww =>
        loopGradScaled_congr abkw t.v H W g _ _ _ _ B hout hscale j hj c hh ww)
    calc emaFold abkw ((linStep afwd abkw eps B C H W s x g).2.u i c)
          (winTail (linStep afwd abkw eps B C H W s x g).2.u_p B (i + 1) c)
        = (1 - abkw) * loopU abkw t.u H W
            (loopGradScaled abkw t.v H W g (linOut afwd eps B H W s x)
              (linScale afwd eps B H W s x)) B c := h2
      _ = (1 - abkw) * loopU abkw t.u H W
            (loopGradScaled abkw t.v H W g (loopOut afwd eps t H W x)
              (loopScale afwd eps t H W x)) B c := by rw [h3]
  · intro c i hi
    have h4 := linV_inv_next abkw B C H W (linForwardState afwd B H W s x) t
      (linOut afwd eps B H W s x) g hv hap hnc c i hi
    have h5 : loopV abkw t.v H W g (linOut afwd eps B H W s x) B c =
        loopV abkw t.v H W g (loopOut afwd eps t H W x) B c :=
      loopV_congr abkw t.v H W g _ _ B c (fun j hj hh ww => hout j hj c hh ww)
    exact h4.trans h5
  · intro j c
    exact lt_of_lt_of_le (by norm_num : (0 : ℝ) < 1e-5) (le_max_right _ _)

theorem run_sim (afwd abkw eps : ℝ) (B C H W : ℕ) (hHW : H * W ≠ 0)
    (l : List (Ten4 × Ten4)) (s : LinState) (t : LoopState)
    (hsim : SimInv afwd abkw B s t)
    (hnc : NoClampRun afwd abkw eps B C H W s l) :
    SimInv afwd abkw B (linRun afwd abkw eps B C H W s l)
      (loopRun afwd abkw eps B H W t l) := by
  induction l generalizing s t with
  | nil => exact hsim
  | cons p rest ih =>
    have hnc' : NoClampAt abkw H W B (linOut afwd eps B H W s p.1) ∧
        NoClampRun afwd abkw eps B C H W (linStep afwd abkw eps B C H W s p.1 p.2).2 rest :=
      hnc
    exact ih _ _ (step_sim afwd abkw eps B C H W hHW s t hsim p.1 p.2 hnc'.1).2.2 hnc'.2

theorem NoClampRun_append (afwd abkw eps : ℝ) (B C H W : ℕ) (s : LinState)
    (l1 l2 : List (Ten4 × Ten4)) :
    NoClampRun afwd abkw eps B C H W s (l1 ++ l2) →
      NoClampRun afwd abkw eps B C H W s l1 ∧
        NoClampRun afwd abkw eps B C H W (linRun afwd abkw eps B C H W s l1) l2 := by
  induction l1 generalizing s with
  | nil => intro h; exact ⟨trivial, h⟩
  | cons p rest ih =>
    intro h
    have h' : NoClampAt abkw H W B (linOut afwd eps B H W s p.1) ∧
        NoClampRun afwd abkw eps B C H W (linStep afwd abkw eps B C H W s p.1 p.2).2
          (rest ++ l2) := h
    obtain ⟨h3, h4⟩ := ih _ h'.2
    exact ⟨⟨h'.1, h3⟩, h4⟩

/-- Claim C1 (amended): for every configuration (batch size B, channels C,
decay rates in (0,1), eps > 0, nonempty spatial extent) and every sequence
of K training forward calls each followed by its matching backward, fed
the same samples in the same order, the linearized `ControlNorm2D`
produces exactly the same normalized outputs and the same propagated input
gradients as the sequential reference `ControlNorm2DLoop`, PROVIDED the
backward clamp never fires, i.e. every per-sample decay
`1 - (1-abkw)*E[out^2]` stays at or above the call-site floor 1e-5 along
the run (`NoClampRun`).  Amendment forced by the counterexample: the
sequential reference applies no clamp, so on inputs that drive the decay
below the floor the two implementations genuinely diverge. -/
theorem C1_linearization_equiv (afwd abkw eps : ℝ) (B C H W : ℕ)
    (hB : 0 < B) (hH : 0 < H) (hW : 0 < W)
    (haf0 : 0 < afwd) (haf1 : afwd < 1) (hab0 : 0 < abkw) (hab1 : abkw < 1)
    (heps : 0 < eps) (l : List (Ten4 × Ten4)) (x g : Ten4)
    (hnc : NoClampRun afwd abkw eps B C H W linInit (l ++ [(x, g)])) :
    ∀ i, i < B → ∀ c h w,
      (linStep afwd abkw eps B C H W (linRun afwd abkw eps B C H W linInit l) x g).1.1
          i c h w =
        (loopStep afwd abkw eps B H W (loopRun afwd abkw eps B H W loopInit l) x g).1.1
          i c h w ∧
      (linStep afwd abkw eps B C H W (linRun afwd abkw eps B C H W linInit l) x g).1.2
          i c h w =
        (loopStep afwd abkw eps B H W (loopRun afwd abkw eps B H W loopInit l) x g).1.2
          i c h w := by
  have hHW : H * W ≠ 0 := Nat.mul_ne_zero (by omega) (by omega)
  obtain ⟨hnc1, hnc2⟩ := NoClampRun_append afwd abkw eps B C H W linInit l [(x, g)] hnc
  have hsim := run_sim afwd abkw eps B C H W hHW l linInit loopInit
    (SimInv_init afwd abkw B) hnc1
  have hnc3 : NoClampAt abkw H W B
      (linOut afwd eps B H W (linRun afwd abkw eps B C H W linInit l) x) ∧
      NoClampRun afwd abkw eps B C H W _ [] := hnc2
  have hstep := step_sim afwd abkw eps B C H W hHW _ _ hsim x g hnc3.1
  intro i hi c h w
  exact ⟨hstep.1 i hi c h w, hstep.2.1 i hi c h w⟩

/-- Constant all-zeros test tensor. -/
def zeroT : Ten4 := fun _ _ _ _ => 0

theorem C1_noclamp_zero :
    NoClampRun (1 / 2) (1 / 2) 1 1 1 1 1 linInit [(zeroT, zeroT)] := by
  refine ⟨?_, trivial⟩
  intro i hi c
  interval_cases i
  have hout : ∀ h w : ℕ, linOut (1 / 2) 1 1 1 1 linInit zeroT 0 c h w = 0 := by
    intro h w
    simp [linOut, linMuPair, lin_momentum, zeroT, linInit]
  unfold ctrlAlphaRaw spatialMean
  simp only [hout]
  norm_num

/-- Concrete forward input of the C1 counterexample: per-sample values
(5/2, 37/8, 0), constant across channels and the 1x1 spatial extent. -/
def xC1 : Ten4 := fun i _ _ _ => if i = 0 then 5 / 2 else if i = 1 then 37 / 8 else 0

/-- Concrete incoming gradient of the C1 counterexample: per-sample values
(4/5, 0, 0). -/
def gC1 : Ten4 := fun i _ _ _ => if i = 0 then 4 / 5 else 0

/-- Saved normalized output of the counterexample's single loop forward. -/
def outC1 : Ten4 := loopOut (1 / 2) 3 loopInit 1 1 xC1

/-- Saved scale of the counterexample's single loop forward. -/
def scaleC1 : Mat := loopScale (1 / 2) 3 loopInit 1 1 xC1

theorem spatialMean_one (f : ℕ → ℕ → ℝ) : spatialMean 1 1 f = f 0 0 := by
  simp [spatialMean]

theorem xC1_mu0 : moments_mu 1 1 xC1 0 0 = 5 / 2 := by
  simp [moments_mu, spatialMean, xC1]

theorem xC1_mu1 : moments_mu 1 1 xC1 1 0 = 37 / 8 := by
  simp [moments_mu, spatialMean, xC1]

theorem xC1_mu2 : moments_mu 1 1 xC1 2 0 = 0 := by
  simp [moments_mu, spatialMean, xC1]

theorem xC1_var : ∀ i, moments_var 1 1 xC1 i 0 = 0 := by
  intro i
  simp [moments_var, moments_mu, spatialMean]

theorem loopC1_M0 : loopM (1 / 2) loopInit.m (moments_mu 1 1 xC1) 0 0 = 0 := rfl

theorem loopC1_M1 : loopM (1 / 2) loopInit.m (moments_mu 1 1 xC1) 1 0 = 5 / 4 := by
  have h : loopM (1 / 2) loopInit.m (moments_mu 1 1 xC1) 1 0 =
      loopM (1 / 2) loopInit.m (moments_mu 1 1 xC1) 0 0 +
        (1 - 1 / 2) * (moments_mu 1 1 xC1 0 0 -
          loopM (1 / 2) loopInit.m (moments_mu 1 1 xC1) 0 0) := rfl
  rw [h, loopC1_M0, xC1_mu0]
  norm_num

theorem loopC1_M2 : loopM (1 / 2) loopInit.m (moments_mu 1 1 xC1) 2 0 = 47 / 16 := by
  have h : loopM (1 / 2) loopInit.m (moments_mu 1 1 xC1) 2 0 =
      loopM (1 / 2) loopInit.m (moments_mu 1 1 xC1) 1 0 +
        (1 - 1 / 2) * (moments_mu 1 1 xC1 1 0 -
          loopM (1 / 2) loopInit.m (moments_mu 1 1 xC1) 1 0) := rfl
  rw [h, loopC1_M1, xC1_mu1]
  norm_num

theorem loopC1_V0 : loopVar (1 / 2) loopInit.m loopInit.var (moments_mu 1 1 xC1)
    (moments_var 1 1 xC1) 0 0 = 1 := rfl

theorem loopC1_V1 : loopVar (1 / 2) loopInit.m loopInit.var (moments_mu 1 1 xC1)
    (moments_var 1 1 xC1) 1 0 = 33 / 16 := by
  have h : loopVar (1 / 2) loopInit.m loopInit.var (moments_mu 1 1 xC1)
      (moments_var 1 1 xC1) 1 0 =
      (1 / 2) * loopVar (1 / 2) loopInit.m loopInit.var (moments_mu 1 1 xC1)
          (moments_var 1 1 xC1) 0 0 +
        (1 - 1 / 2) * moments_var 1 1 xC1 0 0 +
        (1 / 2) * (1 - 1 / 2) * (moments_mu 1 1 xC1 0 0 -
          loopM (1 / 2) loopInit.m (moments_mu 1 1 xC1) 0 0) ^ 2 := rfl
  rw [h, loopC1_V0, xC1_var 0, xC1_mu0, loopC1_M0]
  norm_num

theorem loopC1_V2 : loopVar (1 / 2) loopInit.m loopInit.var (moments_mu 1 1 xC1)
    (moments_var 1 1 xC1) 2 0 = 993 / 256 := by
  have h : loopVar (1 / 2) loopInit.m loopInit.var (moments_mu 1 1 xC1)
      (moments_var 1 1 xC1) 2 0 =
      (1 / 2) * loopVar (1 / 2) loopInit.m loopInit.var (moments_mu 1 1 xC1)
          (moments_var 1 1 xC1) 1 0 +
        (1 - 1 / 2) * moments_var 1 1 xC1 1 0 +
        (1 / 2) * (1 - 1 / 2) * (moments_mu 1 1 xC1 1 0 -
          loopM (1 / 2) loopInit.m (moments_mu 1 1 xC1) 1 0) ^ 2 := rfl
  rw [h, loopC1_V1, xC1_var 1, xC1_mu1, loopC1_M1]
  norm_num

theorem loopC1_scale0 : scaleC1 0 0 = 2 := by
  show Real.sqrt (loopVar (1 / 2) loopInit.m loopInit.var (moments_mu 1 1 xC1)
    (moments_var 1 1 xC1) 0 0 + 3) = 2
  rw [loopC1_V0, (by norm_num : (1 : ℝ) + 3 = 2 ^ 2),
    Real.sqrt_sq (by norm_num : (0 : ℝ) ≤ 2)]

theorem loopC1_scale1 : scaleC1 1 0 = 9 / 4 := by
  show Real.sqrt (loopVar (1 / 2) loopInit.m loopInit.var (moments_mu 1 1 xC1)
    (moments_var 1 1 xC1) 1 0 + 3) = 9 / 4
  rw [loopC1_V1, (by norm_num : (33 : ℝ) / 16 + 3 = (9 / 4) ^ 2),
    Real.sqrt_sq (by norm_num : (0 : ℝ) ≤ 9 / 4)]

theorem loopC1_scale2_sq : scaleC1 2 0 ^ 2 = 1761 / 256 := by
  show Real.sqrt (loopVar (1 / 2) loopInit.m loopInit.var (moments_mu 1 1 xC1)
    (moments_var 1 1 xC1) 2 0 + 3) ^ 2 = 1761 / 256
  rw [loopC1_V2, Real.sq_sqrt (by norm_num : (0 : ℝ) ≤ 993 / 256 + 3)]
  norm_num

theorem loopC1_scale2_pos : 0 < scaleC1 2 0 := by
  show 0 < Real.sqrt (loopVar (1 / 2) loopInit.m loopInit.var (moments_mu 1 1 xC1)
    (moments_var 1 1 xC1) 2 0 + 3)
  apply Real.sqrt_pos.mpr
  rw [loopC1_V2]
  norm_num

theorem loopC1_out0 : outC1 0 0 0 0 = 5 / 4 := by
  show (xC1 0 0 0 0 - loopM (1 / 2) loopInit.m (moments_mu 1 1 xC1) 0 0) /
      scaleC1 0 0 = 5 / 4
  rw [loopC1_M0, loopC1_scale0]
  simp [xC1]
  norm_num

theorem loopC1_out1 : outC1 1 0 0 0 = 3 / 2 := by
  show (xC1 1 0 0 0 - loopM (1 / 2) loopInit.m (moments_mu 1 1 xC1) 1 0) /
      scaleC1 1 0 = 3 / 2
  rw [loopC1_M1, loopC1_scale1]
  simp [xC1]
  norm_num

theorem loopC1_out2 : outC1 2 0 0 0 = (0 - 47 / 16) / scaleC1 2 0 := by
  show (xC1 2 0 0 0 - loopM (1 / 2) loopInit.m (moments_mu 1 1 xC1) 2 0) /
      scaleC1 2 0 = (0 - 47 / 16) / scaleC1 2 0
  rw [loopC1_M2]
  simp [xC1]

theorem loopC1_v0 : loopV (1 / 2) loopInit.v 1 1 gC1 outC1 0 0 = 0 := rfl

theorem loopC1_v1 : loopV (1 / 2) loopInit.v 1 1 gC1 outC1 1 0 = 1 := by
  have h : loopV (1 / 2) loopInit.v 1 1 gC1 outC1 1 0 =
      loopV (1 / 2) loopInit.v 1 1 gC1 outC1 0 0 +
        spatialMean 1 1 (fun hh ww =>
          (gC1 0 0 hh ww - (1 - 1 / 2) * loopV (1 / 2) loopInit.v 1 1 gC1 outC1 0 0 *
            outC1 0 0 hh ww) * outC1 0 0 hh ww) := rfl
  rw [h, loopC1_v0]
  simp only [spatialMean_one]
  rw [loopC1_out0]
  simp [gC1]

theorem loopC1_v2 : loopV (1 / 2) loopInit.v 1 1 gC1 outC1 2 0 = -(1 / 8) := by
  have h : loopV (1 / 2) loopInit.v 1 1 gC1 outC1 2 0 =
      loopV (1 / 2) loopInit.v 1 1 gC1 outC1 1 0 +
        spatialMean 1 1 (fun hh ww =>
          (gC1 1 0 hh ww - (1 - 1 / 2) * loopV (1 / 2) loopInit.v 1 1 gC1 outC1 1 0 *
            outC1 1 0 hh ww) * outC1 1 0 hh ww) := rfl
  rw [h, loopC1_v1]
  simp only [spatialMean_one]
  rw [loopC1_out1]
  simp [gC1]
  norm_num

theorem loopC1_gs0 : loopGradScaled (1 / 2) loopInit.v 1 1 gC1 outC1 scaleC1 0 0 0 0 =
    2 / 5 := by
  show (gC1 0 0 0 0 - (1 - 1 / 2) * loopV (1 / 2) loopInit.v 1 1 gC1 outC1 0 0 *
      outC1 0 0 0 0) / scaleC1 0 0 = 2 / 5
  rw [loopC1_v0, loopC1_out0, loopC1_scale0]
  simp [gC1]
  norm_num

theorem loopC1_gs1 : loopGradScaled (1 / 2) loopInit.v 1 1 gC1 outC1 scaleC1 1 0 0 0 =
    -(1 / 3) := by
  show (gC1 1 0 0 0 - (1 - 1 / 2) * loopV (1 / 2) loopInit.v 1 1 gC1 outC1 1 0 *
      outC1 1 0 0 0) / scaleC1 1 0 = -(1 / 3)
  rw [loopC1_v1, loopC1_out1, loopC1_scale1]
  simp [gC1]
  norm_num

theorem loopC1_gs2 : loopGradScaled (1 / 2) loopInit.v 1 1 gC1 outC1 scaleC1 2 0 0 0 =
    -(47 / 1761) := by
  show (gC1 2 0 0 0 - (1 - 1 / 2) * loopV (1 / 2) loopInit.v 1 1 gC1 outC1 2 0 *
      outC1 2 0 0 0) / scaleC1 2 0 = -(47 / 1761)
  rw [loopC1_v2, loopC1_out2]
  simp only [gC1]
  norm_num
  have hne : scaleC1 2 0 ≠ 0 := ne_of_gt loopC1_scale2_pos
  have hsq := loopC1_scale2_sq
  field_simp
  nlinarith [hsq]

theorem loopC1_u0 : loopU (1 / 2) loopInit.u 1 1
    (loopGradScaled (1 / 2) loopInit.v 1 1 gC1 outC1 scaleC1) 0 0 = 0 := rfl

theorem loopC1_u1 : loopU (1 / 2) loopInit.u 1 1
    (loopGradScaled (1 / 2) loopInit.v 1 1 gC1 outC1 scaleC1) 1 0 = 2 / 5 := by
  have h : loopU (1 / 2) loopInit.u 1 1
      (loopGradScaled (1 / 2) loopInit.v 1 1 gC1 outC1 scaleC1) 1 0 =
      loopU (1 / 2) loopInit.u 1 1
        (loopGradScaled (1 / 2) loopInit.v 1 1 gC1 outC1 scaleC1) 0 0 +
        spatialMean 1 1 (fun hh ww =>
          loopGradScaled (1 / 2) loopInit.v 1 1 gC1 outC1 scaleC1 0 0 hh ww -
            (1 - 1 / 2) * loopU (1 / 2) loopInit.u 1 1
              (loopGradScaled (1 / 2) loopInit.v 1 1 gC1 outC1 scaleC1) 0 0) := rfl
  rw [h, loopC1_u0]
  simp only [spatialMean_one]
  rw [loopC1_gs0]
  norm_num

theorem loopC1_u2 : loopU (1 / 2) loopInit.u 1 1
    (loopGradScaled (1 / 2) loopInit.v 1 1 gC1 outC1 scaleC1) 2 0 = -(2 / 15) := by
  have h : loopU (1 / 2) loopInit.u 1 1
      (loopGradScaled (1 / 2) loopInit.v 1 1 gC1 outC1 scaleC1) 2 0 =
      loopU (1 / 2) loopInit.u 1 1
        (loopGradScaled (1 / 2) loopInit.v 1 1 gC1 outC1 scaleC1) 1 0 +
        spatialMean 1 1 (fun hh ww =>
          loopGradScaled (1 / 2) loopInit.v 1 1 gC1 outC1 scaleC1 1 0 hh ww -
            (1 - 1 / 2) * loopU (1 / 2) loopInit.u 1 1
              (loopGradScaled (1 / 2) loopInit.v 1 1 gC1 outC1 scaleC1) 1 0) := rfl
  rw [h, loopC1_u1]
  simp only [spatialMean_one]
  rw [loopC1_gs1]
  norm_num

theorem loopC1_grad2 : (loopStep (1 / 2) (1 / 2) 3 3 1 1 loopInit xC1 gC1).1.2 2 0 0 0 =
    -(47 / 1761) + 1 / 15 := by
  show loopGradScaled (1 / 2) loopInit.v 1 1 gC1 outC1 scaleC1 2 0 0 0 -
      (1 - 1 / 2) * loopU (1 / 2) loopInit.u 1 1
        (loopGradScaled (1 / 2) loopInit.v 1 1 gC1 outC1 scaleC1) 2 0 =
    -(47 / 1761) + 1 / 15
  rw [loopC1_gs2, loopC1_u2]
  norm_num

/-- Post-forward linearized state of the counterexample call. -/
def s1C1 : LinState := linForwardState (1 / 2) 3 1 1 linInit xC1

/-- Linearized normalized output of the counterexample call. -/
def outLinC1 : Ten4 := linOut (1 / 2) 3 3 1 1 linInit xC1

/-- Linearized scale of the counterexample call. -/
def scaleLinC1 : Mat := linScale (1 / 2) 3 3 1 1 linInit xC1

theorem s1C1_alpha_p : ∀ j c, s1C1.alpha_p j c = 1 := fun _ _ => rfl

theorem s1C1_beta_p : ∀ j c, s1C1.beta_p j c = 0 := fun _ _ => rfl

theorem s1C1_v_p : ∀ j c, s1C1.v_p j c = 0 := fun _ _ => rfl

theorem s1C1_u : ∀ j c, s1C1.u j c = 0 := fun _ _ => rfl

theorem s1C1_u_p : ∀ j c, s1C1.u_p j c = 0 := fun _ _ => rfl

theorem linC1_out_eq : ∀ i, i < 3 → ∀ c h w, outLinC1 i c h w = outC1 i c h w := by
  intro i hi c h w
  exact linOut_eq_loopOut (1 / 2) 3 3 1 1 linInit loopInit xC1
    (SimInv_init (1 / 2) (1 / 2) 3).1 (SimInv_init (1 / 2) (1 / 2) 3).2.1 i hi c h w

theorem linC1_scale_eq : ∀ i, i < 3 → ∀ c, scaleLinC1 i c = scaleC1 i c := by
  intro i hi c
  exact linScale_eq_loopScale (1 / 2) 3 3 1 1 linInit loopInit xC1
    (SimInv_init (1 / 2) (1 / 2) 3).1 (SimInv_init (1 / 2) (1 / 2) 3).2.1 i hi c

theorem linC1_alpha0 : ctrlAlpha (1 / 2) 1e-5 1 1 outLinC1 0 0 = 7 / 32 := by
  have hraw : ctrlAlphaRaw (1 / 2) 1 1 outLinC1 0 0 = 7 / 32 := by
    unfold ctrlAlphaRaw
    simp only [spatialMean_one]
    rw [linC1_out_eq 0 (by norm_num) 0 0 0, loopC1_out0]
    norm_num
  show clampMin (ctrlAlphaRaw (1 / 2) 1 1 outLinC1 0 0) 1e-5 = 7 / 32
  rw [hraw]
  exact max_eq_left (by norm_num)

theorem linC1_alpha1 : ctrlAlpha (1 / 2) 1e-5 1 1 outLinC1 1 0 = 1e-5 := by
  have hraw : ctrlAlphaRaw (1 / 2) 1 1 outLinC1 1 0 = -(1 / 8) := by
    unfold ctrlAlphaRaw
    simp only [spatialMean_one]
    rw [linC1_out_eq 1 (by norm_num) 0 0 0, loopC1_out1]
    norm_num
  show clampMin (ctrlAlphaRaw (1 / 2) 1 1 outLinC1 1 0) 1e-5 = 1e-5
  rw [hraw]
  exact max_eq_right (by norm_num)

theorem linC1_beta0 : ctrlBeta 1 1 gC1 outLinC1 0 0 = 1 := by
  unfold ctrlBeta
  simp only [spatialMean_one]
  rw [linC1_out_eq 0 (by norm_num) 0 0 0, loopC1_out0]
  norm_num [gC1]

theorem linC1_beta1 : ctrlBeta 1 1 gC1 outLinC1 1 0 = 0 := by
  unfold ctrlBeta
  simp only [spatialMean_one]
  norm_num [gC1]

theorem linC1_vnew0 : (linCtrlOut (1 / 2) 3 2 1 1 s1C1 outLinC1 gC1).2.1 0 0 = 1 := by
  rw [linCtrlOut, lin_crtl_v_new_eq 3 2 1 1 gC1 outLinC1 s1C1.v_p s1C1.alpha_p
    s1C1.beta_p (1 / 2) 1e-5 (by norm_num) 0
    (fun j _ => by rw [s1C1_alpha_p]; exact one_pos) 0 (by norm_num)]
  simp only [(by decide : List.range 3 = [0, 1, 2]), List.map_cons, List.map_nil]
  simp only [ctrlFold, List.foldl_cons, List.foldl_nil, ctrlStep]
  norm_num [catRows, s1C1_alpha_p, s1C1_beta_p, s1C1_v_p, linC1_alpha0, linC1_beta0]

theorem linC1_vnew1 : (linCtrlOut (1 / 2) 3 2 1 1 s1C1 outLinC1 gC1).2.1 1 0 = 1e-5 := by
  rw [linCtrlOut, lin_crtl_v_new_eq 3 2 1 1 gC1 outLinC1 s1C1.v_p s1C1.alpha_p
    s1C1.beta_p (1 / 2) 1e-5 (by norm_num) 0
    (fun j _ => by rw [s1C1_alpha_p]; exact one_pos) 1 (by norm_num)]
  simp only [(by decide : List.range 3 = [0, 1, 2]), List.map_cons, List.map_nil]
  simp only [ctrlFold, List.foldl_cons, List.foldl_nil, ctrlStep]
  norm_num [catRows, s1C1_alpha_p, s1C1_beta_p, s1C1_v_p, linC1_alpha0, linC1_beta0,
    linC1_alpha1, linC1_beta1]
  rw [(by norm_num : (1 : ℝ) / 100000 = 1e-5)]
  exact linC1_alpha1

theorem linC1_gd0 : linGradScaled (1 / 2) 3 2 1 1 s1C1 outLinC1 scaleLinC1 gC1 0 0 0 0 =
    2 / 5 := by
  show (linCtrlOut (1 / 2) 3 2 1 1 s1C1 outLinC1 gC1).1 0 0 0 0 / scaleLinC1 0 0 = 2 / 5
  have h0 : (linCtrlOut (1 / 2) 3 2 1 1 s1C1 outLinC1 gC1).1 0 0 0 0 =
      gC1 0 0 0 0 - s1C1.v_p (3 - 1) 0 * (1 - 1 / 2) * outLinC1 0 0 0 0 := rfl
  rw [h0, s1C1_v_p, linC1_scale_eq 0 (by norm_num) 0, loopC1_scale0]
  norm_num [gC1]

theorem linC1_gd1 : linGradScaled (1 / 2) 3 2 1 1 s1C1 outLinC1 scaleLinC1 gC1 1 0 0 0 =
    -(1 / 3) := by
  show (linCtrlOut (1 / 2) 3 2 1 1 s1C1 outLinC1 gC1).1 1 0 0 0 / scaleLinC1 1 0 = -(1 / 3)
  have h0 : (linCtrlOut (1 / 2) 3 2 1 1 s1C1 outLinC1 gC1).1 1 0 0 0 =
      gC1 1 0 0 0 - (linCtrlOut (1 / 2) 3 2 1 1 s1C1 outLinC1 gC1).2.1 0 0 *
        (1 - 1 / 2) * outLinC1 1 0 0 0 := rfl
  rw [h0, linC1_vnew0, linC1_scale_eq 1 (by norm_num) 0, loopC1_scale1,
    linC1_out_eq 1 (by norm_num) 0 0 0, loopC1_out1]
  norm_num [gC1]

theorem linC1_gd2 : linGradScaled (1 / 2) 3 2 1 1 s1C1 outLinC1 scaleLinC1 gC1 2 0 0 0 =
    1e-5 * (376 / 1761) := by
  show (linCtrlOut (1 / 2) 3 2 1 1 s1C1 outLinC1 gC1).1 2 0 0 0 / scaleLinC1 2 0 =
    1e-5 * (376 / 1761)
  have h0 : (linCtrlOut (1 / 2) 3 2 1 1 s1C1 outLinC1 gC1).1 2 0 0 0 =
      gC1 2 0 0 0 - (linCtrlOut (1 / 2) 3 2 1 1 s1C1 outLinC1 gC1).2.1 1 0 *
        (1 - 1 / 2) * outLinC1 2 0 0 0 := rfl
  rw [h0, linC1_vnew1, linC1_scale_eq 2 (by norm_num) 0,
    linC1_out_eq 2 (by norm_num) 0 0 0, loopC1_out2]
  simp only [gC1]
  norm_num
  have hne : scaleC1 2 0 ≠ 0 := ne_of_gt loopC1_scale2_pos
  have hsq := loopC1_scale2_sq
  field_simp
  nlinarith [hsq]

theorem linC1_utmp0 : linUTmp (1 / 2) 3 2 1 1 s1C1 outLinC1 scaleLinC1 gC1 0 0 = 2 / 5 := by
  show spatialMean 1 1 (fun h w =>
    linGradScaled (1 / 2) 3 2 1 1 s1C1 outLinC1 scaleLinC1 gC1 0 0 h w) = 2 / 5
  simp only [spatialMean_one]
  exact linC1_gd0

theorem linC1_utmp1 : linUTmp (1 / 2) 3 2 1 1 s1C1 outLinC1 scaleLinC1 gC1 1 0 =
    -(1 / 3) := by
  show spatialMean 1 1 (fun h w =>
    linGradScaled (1 / 2) 3 2 1 1 s1C1 outLinC1 scaleLinC1 gC1 1 0 h w) = -(1 / 3)
  simp only [spatialMean_one]
  exact linC1_gd1

theorem linC1_ub2 : (linUPair (1 / 2) 3 2 1 1 s1C1 outLinC1 scaleLinC1 gC1).1 2 0 =
    -(1 / 15) := by
  have h : (linUPair (1 / 2) 3 2 1 1 s1C1 outLinC1 scaleLinC1 gC1).1 2 0 =
      decayBatch (1 / 2) 3 1 0 * s1C1.u 1 0 + (1 - 1 / 2) *
        ∑ t ∈ range 3, decayPow (1 / 2) 3 t *
          catW 3 s1C1.u_p (linUTmp (1 / 2) 3 2 1 1 s1C1 outLinC1 scaleLinC1 gC1)
            (1 + t) 0 := rfl
  rw [h]
  norm_num [Finset.sum_range_succ, decayPow, decayBatch, catW, s1C1_u, s1C1_u_p,
    linC1_utmp0, linC1_utmp1]

theorem linC1_grad2 : (linStep (1 / 2) (1 / 2) 3 3 2 1 1 linInit xC1 gC1).1.2 2 0 0 0 =
    1e-5 * (376 / 1761) + 1 / 15 := by
  show linGradScaled (1 / 2) 3 2 1 1 s1C1 outLinC1 scaleLinC1 gC1 2 0 0 0 -
      (linUPair (1 / 2) 3 2 1 1 s1C1 outLinC1 scaleLinC1 gC1).1 2 0 =
    1e-5 * (376 / 1761) + 1 / 15
  rw [linC1_gd2, linC1_ub2]
  norm_num

/-- Claim C1 counterexample: with B=3, C=2, H=W=1, alpha_fwd=alpha_bkw=1/2,
eps=3, a single training forward (inputs 5/2, 37/8, 0 per channel)
followed by its backward (incoming gradients 4/5, 0, 0), the linearized
`ControlNorm2D` and the sequential `ControlNorm2DLoop` disagree on the
propagated gradient of sample 2: sample 1's normalized output is 3/2, so
the raw backward decay is 1 - (1/2)(3/2)^2 = -1/8, which `lin_crtl` clamps
to 1e-5 while the loop reference uses -1/8 unclamped; the resulting
gradients are 1e-5*(376/1761) + 1/15 versus -(47/1761) + 1/15. -/
theorem C1_counterexample :
    (linStep (1 / 2) (1 / 2) 3 3 2 1 1 linInit xC1 gC1).1.2 2 0 0 0 ≠
      (loopStep (1 / 2) (1 / 2) 3 3 1 1 loopInit xC1 gC1).1.2 2 0 0 0 := by
  rw [linC1_grad2, loopC1_grad2]
  norm_num

theorem C1_witness :
    (linStep (1 / 2) (1 / 2) 1 1 1 1 1
          (linRun (1 / 2) (1 / 2) 1 1 1 1 1 linInit []) zeroT zeroT).1.1 0 0 0 0 =
      (loopStep (1 / 2) (1 / 2) 1 1 1 1
          (loopRun (1 / 2) (1 / 2) 1 1 1 1 loopInit []) zeroT zeroT).1.1 0 0 0 0 ∧
    (linStep (1 / 2) (1 / 2) 1 1 1 1 1
          (linRun (1 / 2) (1 / 2) 1 1 1 1 1 linInit []) zeroT zeroT).1.2 0 0 0 0 =
      (loopStep (1 / 2) (1 / 2) 1 1 1 1
          (loopRun (1 / 2) (1 / 2) 1 1 1 1 loopInit []) zeroT zeroT).1.2 0 0 0 0 :=
  C1_linearization_equiv (1 / 2) (1 / 2) 1 1 1 1 1 one_pos one_pos one_pos one_half_pos
    one_half_lt_one one_half_pos one_half_lt_one one_pos [] zeroT zeroT
    C1_noclamp_zero 0 one_pos 0 0 0

/-- Concrete input of the C8 scenario: every sample has channel values
(1, 2) (channel c carries the value c+1), H = W = 1. -/
def x8 : Ten4 := fun _ c _ _ => (c : ℝ) + 1

theorem x8_mu : ∀ j c, moments_mu 1 1 x8 j c = (c : ℝ) + 1 := by
  intro j c
  simp [moments_mu, spatialMean, x8]

/-- Claim C8: with C=2, B=4, H=W=1, alpha_fwd=alpha_bkw=9/10, eps=1e-5, on
a freshly constructed `ControlNorm2D` in training mode, feeding one batch
whose channel values are (1, 2) for every sample: the stale mean used to
normalize sample 0 is the initial seed 0; the fresh mean trajectory entry
for sample i is `(1 - (9/10)^(i+1))` times the channel value (geometric
convergence with ratio 9/10); the normalized output of sample 0, channel 0
is `(1 - 0)/sqrt(1 + 1e-5)`; and the sequential reference produces exactly
the same normalized outputs on this batch. -/
theorem C8_concrete_scenario :
    (∀ c, (linMuPair (9 / 10) 4 1 1 linInit x8).1 0 c = 0) ∧
    (∀ i, i < 4 → ∀ c, (linMuPair (9 / 10) 4 1 1 linInit x8).2 i c =
      (1 - (9 / 10 : ℝ) ^ (i + 1)) * ((c : ℝ) + 1)) ∧
    (linOut (9 / 10) 1e-5 4 1 1 linInit x8 0 0 0 0 = (1 - 0) / Real.sqrt (1 + 1e-5)) ∧
    (∀ i, i < 4 → ∀ c h w, linOut (9 / 10) 1e-5 4 1 1 linInit x8 i c h w =
      loopOut (9 / 10) 1e-5 loopInit 1 1 x8 i c h w) := by
  refine ⟨fun c => rfl, ?_, ?_, ?_⟩
  · intro i hi c
    have h : (linMuPair (9 / 10) 4 1 1 linInit x8).2 i c =
        decayBatch (9 / 10) 4 i c * linInit.m i c + (1 - 9 / 10) *
          ∑ t ∈ range 4, decayPow (9 / 10) 4 t *
            catW 4 linInit.m_p (moments_mu 1 1 x8) (i + t) c := rfl
    rw [h]
    interval_cases i <;>
      · norm_num [Finset.sum_range_succ, decayPow, decayBatch, catW, linInit, x8_mu]
        try ring
  · show (x8 0 0 0 0 - (linMuPair (9 / 10) 4 1 1 linInit x8).1 0 0) /
        Real.sqrt ((linVarPair (9 / 10) 4 1 1 linInit x8).1 0 0 + 1e-5) =
      (1 - 0) / Real.sqrt (1 + 1e-5)
    have h1 : (linMuPair (9 / 10) 4 1 1 linInit x8).1 0 0 = 0 := rfl
    have h2 : (linVarPair (9 / 10) 4 1 1 linInit x8).1 0 0 = 1 := rfl
    rw [h1, h2]
    norm_num [x8]
  · intro i hi c h w
    exact linOut_eq_loopOut (9 / 10) 1e-5 4 1 1 linInit loopInit x8
      (SimInv_init (9 / 10) (9 / 10) 4).1 (SimInv_init (9 / 10) (9 / 10) 4).2.1 i hi c h w

theorem C8_witness : (linMuPair (9 / 10) 4 1 1 linInit x8).2 0 0 =
    (1 - (9 / 10 : ℝ) ^ (0 + 1)) * (((0 : ℕ) : ℝ) + 1) :=
  C8_concrete_scenario.2.1 0 (by norm_num) 0

/-- Nested-list tensor: the dynamically shaped counterpart of `Ten4`. -/
abbrev Tensor4 : Type := List (List (List (List ℝ)))

/-- Shape of a nested-list tensor, as reported for a rectangular tensor:
the four nesting lengths along the first elements. -/
def shape4 (t : Tensor4) : List ℕ :=
  [t.length, (t.headD []).length, ((t.headD []).headD []).length,
    (((t.headD []).headD []).headD []).length]

/-- Entry (n, c, h, w) of a nested-list tensor (junk 0 outside). -/
def tGet (t : Tensor4) (n c h w : ℕ) : ℝ :=
  (((t.getD n []).getD c []).getD h []).getD w 0

/-- Map over a list with the index of each element, starting at `k`. -/
def mapIdxFrom {α β : Type} (k : ℕ) (f : ℕ → α → β) : List α → List β
  | [] => []
  | a :: l => f k a :: mapIdxFrom (k + 1) f l

theorem length_mapIdxFrom {α β : Type} (k : ℕ) (f : ℕ → α → β) (l : List α) :
    (mapIdxFrom k f l).length = l.length := by
  induction l generalizing k with
  | nil => rfl
  | cons a l ih => simp [mapIdxFrom, ih]

/-- Pointwise construction of an output tensor over the index set of an
input tensor: the shape semantics of the elementwise torch expressions
(`(input - mu) / scale`, subtraction, division and broadcasting) that
build every output of the forward and backward paths. -/
def mapShape (t : Tensor4) (f : ℕ → ℕ → ℕ → ℕ → ℝ) : Tensor4 :=
  mapIdxFrom 0 (fun n pl => mapIdxFrom 0 (fun c rows =>
    mapIdxFrom 0 (fun h row => mapIdxFrom 0 (fun w _ => f n c h w) row) rows) pl) t

theorem shape4_mapShape (t : Tensor4) (f : ℕ → ℕ → ℕ → ℕ → ℝ) :
    shape4 (mapShape t f) = shape4 t := by
  cases t with
  | nil => rfl
  | cons p tl =>
    cases p with
    | nil => simp [mapShape, mapIdxFrom, shape4, length_mapIdxFrom]
    | cons r pl =>
      cases r with
      | nil => simp [mapShape, mapIdxFrom, shape4, length_mapIdxFrom]
      | cons row rl => simp [mapShape, mapIdxFrom, shape4, length_mapIdxFrom]

/-- Training-mode forward of `ControlNorm2D` on a nested-list tensor. -/
def cn2dForwardT (afwd eps : ℝ) (B H W : ℕ) (s : LinState) (t : Tensor4) : Tensor4 :=
  mapShape t (fun n c h w => linOut afwd eps B H W s (tGet t) n c h w)

/-- Evaluation-mode forward of `ControlNorm2D` on a nested-list tensor. -/
def cn2dEvalT (eps : ℝ) (B : ℕ) (s : LinState) (t : Tensor4) : Tensor4 :=
  mapShape t (fun n c h w => linEvalOut eps B s (tGet t) n c h w)

/-- Backward of `ControlNorm2D` on a nested-list gradient tensor. -/
def cn2dBackwardT (abkw : ℝ) (B C H W : ℕ) (s : LinState) (out : Ten4) (scale : Mat)
    (t : Tensor4) : Tensor4 :=
  mapShape t (fun n c h w => linGradOut abkw B C H W s out scale (tGet t) n c h w)

/-- Training-mode forward of `ControlNorm2DLoop` on a nested-list tensor. -/
def loopForwardT (afwd eps : ℝ) (s : LoopState) (H W : ℕ) (t : Tensor4) : Tensor4 :=
  mapShape t (fun n c h w => loopOut afwd eps s H W (tGet t) n c h w)

/-- Evaluation-mode forward of `ControlNorm2DLoop` on a nested-list tensor. -/
def loopEvalT (eps : ℝ) (s : LoopState) (t : Tensor4) : Tensor4 :=
  mapShape t (fun n c h w => loopEvalOut eps s (tGet t) n c h w)

/-- Backward of `ControlNorm2DLoop` on a nested-list gradient tensor. -/
def loopBackwardT (abkw : ℝ) (s : LoopState) (H W : ℕ) (out : Ten4) (scale : Mat)
    (t : Tensor4) : Tensor4 :=
  mapShape t (fun n c h w => loopGradIn abkw s.u s.v H W (tGet t) out scale n c h w)

/-- Claim C9: training-mode forward, evaluation-mode forward, and backward
of `ControlNorm2D` (and of `ControlNorm2DLoop`) each return a tensor of
exactly the same shape as the tensor they were given: every output is an
elementwise expression built over the input's own index set. -/
theorem C9_shape_preservation (afwd abkw eps : ℝ) (B C H W : ℕ) (s : LinState)
    (ls : LoopState) (out : Ten4) (scale : Mat) (t g : Tensor4) :
    shape4 (cn2dForwardT afwd eps B H W s t) = shape4 t ∧
    shape4 (cn2dEvalT eps B s t) = shape4 t ∧
    shape4 (cn2dBackwardT abkw B C H W s out scale g) = shape4 g ∧
    shape4 (loopForwardT afwd eps ls H W t) = shape4 t ∧
    shape4 (loopEvalT eps ls t) = shape4 t ∧
    shape4 (loopBackwardT abkw ls H W out scale g) = shape4 g :=
  ⟨shape4_mapShape t _, shape4_mapShape t _, shape4_mapShape g _,
   shape4_mapShape t _, shape4_mapShape t _, shape4_mapShape g _⟩

/-- Shape semantics of argument-free `torch.squeeze`: every axis of extent
1 is removed. -/
def squeezeShape (s : List ℕ) : List ℕ := s.filter (fun d => d ≠ 1)

/-- Shape of the mean returned by `ControlNorm2D.moments`: the
`keepdim=True` spatial sum has shape (B, C, 1, 1) and `.squeeze()` then
drops every unit axis. -/
def momentsMuShape (B C : ℕ) : List ℕ := squeezeShape [B, C, 1, 1]

/-- Shape of the variance returned by `moments` (`keepdim=False` sum over
the spatial axes): always (B, C). -/
def momentsVarShape (B C : ℕ) : List ℕ := [B, C]

/-- Shape assigned to the `m_p` buffer by the training forward
(`self.m_p.data = mu.clone()` rebinds the buffer to the squeezed mean). -/
def mpShapeAfterForward (B C : ℕ) : List ℕ := momentsMuShape B C

theorem spatialMean_sub_mul (H W : ℕ) (a b : ℕ → ℕ → ℝ) (k : ℝ) :
    spatialMean H W (fun h w => a h w - k * b h w) =
      spatialMean H W a - k * spatialMean H W b := by
  unfold spatialMean
  have hsum : ∑ h ∈ range H, ∑ w ∈ range W, (a h w - k * b h w)
      = (∑ h ∈ range H, ∑ w ∈ range W, a h w)
        - k * ∑ h ∈ range H, ∑ w ∈ range W, b h w := by
    rw [mul_sum, ← sum_sub_distrib]
    refine sum_congr rfl fun h _ => ?_
    rw [mul_sum, ← sum_sub_distrib]
  rw [hsum, sub_div, mul_div_assoc]

theorem spatialMean_add_const (H W : ℕ) (hHW : H * W ≠ 0) (f : ℕ → ℕ → ℝ) (k : ℝ) :
    spatialMean H W (fun h w => f h w + k) = spatialMean H W f + k := by
  have h := spatialMean_sub_const H W hHW (fun h w => f h w + k) k
  simp only [add_sub_cancel_right] at h
  linarith [h]

/-- Biased spatial variance as a second-moment identity (Steiner):
`E[(x - mean)^2] = E[x^2] - mean^2`, for a nonempty spatial extent. -/
theorem spatialMean_sq_dev (H W : ℕ) (hHW : H * W ≠ 0) (f : ℕ → ℕ → ℝ) :
    spatialMean H W (fun h w => (f h w - spatialMean H W f) ^ 2) =
      spatialMean H W (fun h w => f h w ^ 2) - spatialMean H W f ^ 2 := by
  have hexp : spatialMean H W (fun h w => (f h w - spatialMean H W f) ^ 2) =
      spatialMean H W (fun h w =>
        (f h w ^ 2 - (2 * spatialMean H W f) * f h w) + spatialMean H W f ^ 2) := by
    unfold spatialMean
    congr 1
    refine sum_congr rfl fun h _ => sum_congr rfl fun w _ => ?_
    ring
  rw [hexp, spatialMean_add_const H W hHW, spatialMean_sub_mul]
  ring

/-- Claim C10: for inputs of shape (B, C, H, W) with B > 1, C > 1 and a
nonempty spatial extent, `moments` returns the per-sample per-channel
spatial mean and biased variance, each with shape (B, C); but when
`b_size = 1` (which passes the constructor's positive-integer check) or
`num_features = 1`, the `squeeze()` inside `moments` collapses that axis,
so the returned mean does not have shape (B, C) and the training forward
rebinds `m_p` to a buffer that no longer has the documented (B, C) shape. -/
theorem C10_moments_squeeze (B C H W : ℕ) (hB : 1 < B) (hC : 1 < C)
    (hHW : H * W ≠ 0) (x : Ten4) :
    (momentsMuShape B C = [B, C] ∧ momentsVarShape B C = [B, C] ∧
      (∀ i c, moments_mu H W x i c =
        (∑ h ∈ range H, ∑ w ∈ range W, x i c h w) / (H * W)) ∧
      (∀ i c, moments_var H W x i c =
        spatialMean H W (fun h w => x i c h w ^ 2) - moments_mu H W x i c ^ 2)) ∧
    (∀ B2 C2 : ℕ, B2 = 1 ∨ C2 = 1 →
      momentsMuShape B2 C2 ≠ [B2, C2] ∧ mpShapeAfterForward B2 C2 ≠ [B2, C2]) := by
  constructor
  · refine ⟨?_, rfl, fun i c => rfl, ?_⟩
    · simp [momentsMuShape, squeezeShape, Nat.ne_of_gt hB, Nat.ne_of_gt hC]
    · intro i c
      exact spatialMean_sq_dev H W hHW (fun h w => x i c h w)
  · intro B2 C2 hor
    have key : momentsMuShape B2 C2 ≠ [B2, C2] := by
      rcases hor with h1 | h1
      · subst h1
        by_cases hc : C2 = 1
        · subst hc
          decide
        · have hshape : momentsMuShape 1 C2 = [C2] := by
            simp [momentsMuShape, squeezeShape, hc]
          rw [hshape]
          intro hcontra
          simp at hcontra
      · subst h1
        by_cases hb : B2 = 1
        · subst hb
          decide
        · have hshape : momentsMuShape B2 1 = [B2] := by
            simp [momentsMuShape, squeezeShape, hb]
          rw [hshape]
          intro hcontra
          simp at hcontra
    exact ⟨key, key⟩

theorem C10_witness : momentsMuShape 2 2 = [2, 2] :=
  (C10_moments_squeeze 2 2 1 1 (by norm_num) (by norm_num) (by norm_num) zeroT).1.1

end

end OnlineNorm
